import Mathlib

/-!
Verification of the Excel-timetable-to-ICS extraction pipeline.

Shallow embedding of `src/streamlit_app.py` (the grid-locating,
cell-classification, per-slot session extraction, group-merging and
ICS-serialization core) together with theorems settling the frozen claims
about it.

Modelling conventions:
* A pandas cell value is modelled by `Cell`: `empty` stands for Python
  `None`/`NaN`, `str` for text cells, `cdate`/`ctime`/`cdatetime` for native
  `datetime.date` / `datetime.time` / `pd.Timestamp`-`datetime` values.
* The in-memory grid produced by the (out-of-scope) spreadsheet decoding
  library is the input: a `Grid` with its shape and a total cell lookup;
  the code only ever reads inside the guarded bounds.
* The merged-cell metadata produced by openpyxl (`get_merged_map`) is an
  input map from (row, col) to the covering rectangle.
* Calls into external libraries (`dateutil`'s string parsers, `str()`
  rendering of date/time objects) are modelled by explicit total functions,
  documented at their definition; the repository's own logic is translated
  line by line.
* Python exceptions swallowed by `try/except` become `Option.none`;
  machine-level behaviour (I/O, Streamlit UI) is outside the embedding.
-/

/-! ## Basic value model -/

/-- A clock time (minute granularity; the timetable pipeline only ever
produces whole-minute times, seconds render as "00"). -/
structure PTime where
  hour : Nat
  minute : Nat
deriving DecidableEq

/-- A calendar date. -/
structure PDate where
  year : Nat
  month : Nat
  day : Nat
deriving DecidableEq

/-- A naive (zone-less) datetime, as produced by `datetime.combine`. -/
structure PDateTime where
  date : PDate
  time : PTime
deriving DecidableEq

/-- A spreadsheet cell value as seen by the parsing code. -/
inductive Cell where
  | empty : Cell
  | str : String → Cell
  | cdate : PDate → Cell
  | ctime : PTime → Cell
  | cdatetime : PDate → PTime → Cell
deriving DecidableEq

/-- The rectangular grid of one sheet (`df` in the code), with its shape
(`df.shape`) and a total cell lookup (`df.iat`); the code guards every
access to stay inside `nrows × ncols`. -/
structure Grid where
  nrows : Nat
  ncols : Nat
  cell : Nat → Nat → Cell

/-- Test `pd.isna(x) or x is None` on a cell: true exactly for the empty cell. -/
def pdIsna : Cell → Bool
  | Cell.empty => true
  | _ => false

/-! ## Character and string helpers -/

/-- The whitespace class of Python's `str.strip` and of the regex `\s`. -/
def pyIsSpace (c : Char) : Bool :=
  c == ' ' || c == '\t' || c == '\n' || c == '\r' || c == '\x0b' || c == '\x0c'

/-- Python `str.strip()` on a character list. -/
def stripList (cs : List Char) : List Char :=
  ((cs.dropWhile pyIsSpace).reverse.dropWhile pyIsSpace).reverse

/-- Python `str.strip()`. -/
def pyStrip (s : String) : String :=
  String.mk (stripList s.data)

/-- Zero-padded two-digit rendering. -/
def pad2 (n : Nat) : String :=
  (if n < 10 then "0" else "") ++ toString n

/-- Zero-padded four-digit rendering. -/
def pad4 (n : Nat) : String :=
  (if n < 10 then "000" else if n < 100 then "00" else if n < 1000 then "0" else "") ++ toString n

/-- Rendering by `str()` of a native `datetime.time`, e.g. `"08:00:00"`. -/
def PTime.render (t : PTime) : String :=
  pad2 t.hour ++ ":" ++ pad2 t.minute ++ ":00"

/-- Rendering by `str()` of a native `datetime.date`, e.g. `"2026-01-05"`. -/
def PDate.render (d : PDate) : String :=
  pad4 d.year ++ "-" ++ pad2 d.month ++ "-" ++ pad2 d.day

/-- Models Python's `str()` on the cell values the code stringifies.
`str(nan) = "nan"` (the empty cell is only stringified on code paths where
the result never parses as a date or time, which `"nan"` reproduces). -/
def pyStr : Cell → String
  | Cell.empty => "nan"
  | Cell.str s => s
  | Cell.cdate d => d.render
  | Cell.ctime t => t.render
  | Cell.cdatetime d t => d.render ++ " " ++ t.render

/-! ## ICS text escaping (`escape_ical_text`) and its inverse -/

/-- One pass of Python `str.replace(c, rep)` for a single-character needle:
every occurrence of `c` becomes `rep`. -/
def pyReplaceChar (c : Char) (rep : List Char) : List Char → List Char
  | [] => []
  | x :: xs => (if x = c then rep else [x]) ++ pyReplaceChar c rep xs

/-- Function `escape_ical_text` on a character list, with the source's replacement
order: backslash first, then newline, comma, semicolon. -/
def escapeIcalList (cs : List Char) : List Char :=
  pyReplaceChar ';' ['\\', ';']
    (pyReplaceChar ',' ['\\', ',']
      (pyReplaceChar '\n' ['\\', 'n']
        (pyReplaceChar '\\' ['\\', '\\'] cs)))

/-- Function `escape_ical_text(s)` from the source (the `s is None` branch cannot
arise for a Lean `String` argument). -/
def escape_ical_text (s : String) : String :=
  String.mk (escapeIcalList s.data)

/-- The per-character escaping table that the four sequential `replace`
calls implement. -/
def escChar (c : Char) : List Char :=
  if c = '\\' then ['\\', '\\']
  else if c = '\n' then ['\\', 'n']
  else if c = ',' then ['\\', ',']
  else if c = ';' then ['\\', ';']
  else [c]

/-- Reversing the escaping rule: a backslash followed by one of
`\\`, `n`, `,`, `;` decodes to the original character. -/
def unescChar2 (c : Char) : Option Char :=
  if c = '\\' then some '\\'
  else if c = 'n' then some '\n'
  else if c = ',' then some ','
  else if c = ';' then some ';'
  else none

/-- Inverse substitution on a character list. -/
def unescapeIcalList : List Char → List Char
  | [] => []
  | [c] => [c]
  | c1 :: c2 :: rest =>
    if c1 = '\\' then
      match unescChar2 c2 with
      | some d => d :: unescapeIcalList rest
      | none => c1 :: unescapeIcalList (c2 :: rest)
    else c1 :: unescapeIcalList (c2 :: rest)

/-- Inverse of the ICS text escaping. -/
def unescape_ical (s : String) : String :=
  String.mk (unescapeIcalList s.data)

theorem pyReplaceChar_append (c : Char) (rep : List Char) (l1 l2 : List Char) :
    pyReplaceChar c rep (l1 ++ l2) = pyReplaceChar c rep l1 ++ pyReplaceChar c rep l2 := by
  induction l1 with
  | nil => rfl
  | cons x xs ih => simp [pyReplaceChar, ih]

theorem escapeIcalList_cons (c : Char) (rest : List Char) :
    escapeIcalList (c :: rest) = escChar c ++ escapeIcalList rest := by
  have h1 : pyReplaceChar '\\' ['\\', '\\'] (c :: rest) =
      (if c = '\\' then ['\\', '\\'] else [c]) ++ pyReplaceChar '\\' ['\\', '\\'] rest := rfl
  show pyReplaceChar ';' ['\\', ';'] (pyReplaceChar ',' ['\\', ',']
      (pyReplaceChar '\n' ['\\', 'n'] (pyReplaceChar '\\' ['\\', '\\'] (c :: rest)))) = _
  rw [h1, pyReplaceChar_append, pyReplaceChar_append, pyReplaceChar_append]
  congr 1
  by_cases hb : c = '\\'
  · subst hb; rfl
  · by_cases hn : c = '\n'
    · subst hn; rfl
    · by_cases hc : c = ','
      · subst hc; rfl
      · by_cases hs : c = ';'
        · subst hs; rfl
        · simp [pyReplaceChar, escChar, hb, hn, hc, hs]

/-- The four sequential replaces equal the single-pass per-character table:
because backslash is escaped first, later passes never touch the escape
characters that earlier passes introduced. -/
theorem escapeIcalList_eq_flatMap (cs : List Char) :
    escapeIcalList cs = cs.flatMap escChar := by
  induction cs with
  | nil => rfl
  | cons c rest ih => rw [escapeIcalList_cons, List.flatMap_cons, ih]

theorem unescapeIcalList_cons_of_ne (c : Char) (xs : List Char) (h : c ≠ '\\') :
    unescapeIcalList (c :: xs) = c :: unescapeIcalList xs := by
  cases xs with
  | nil => simp [unescapeIcalList]
  | cons y ys => simp [unescapeIcalList, h]

/-- Round trip at the character-list level. -/
theorem unescape_escape_list (cs : List Char) :
    unescapeIcalList (cs.flatMap escChar) = cs := by
  induction cs with
  | nil => simp [unescapeIcalList]
  | cons c rest ih =>
    by_cases hb : c = '\\'
    · subst hb
      simp only [List.flatMap_cons, escChar, if_pos rfl, List.cons_append, List.nil_append]
      simpa [unescapeIcalList, unescChar2] using ih
    · by_cases hn : c = '\n'
      · subst hn
        have he : escChar '\n' = ['\\', 'n'] := by simp [escChar]
        simp only [List.flatMap_cons, he, List.cons_append, List.nil_append]
        simpa [unescapeIcalList, unescChar2] using ih
      · by_cases hc : c = ','
        · subst hc
          have he : escChar ',' = ['\\', ','] := by simp [escChar]
          simp only [List.flatMap_cons, he, List.cons_append, List.nil_append]
          simpa [unescapeIcalList, unescChar2] using ih
        · by_cases hs : c = ';'
          · subst hs
            have he : escChar ';' = ['\\', ';'] := by simp [escChar]
            simp only [List.flatMap_cons, he, List.cons_append, List.nil_append]
            simpa [unescapeIcalList, unescChar2] using ih
          · have he : escChar c = [c] := by simp [escChar, hb, hn, hc, hs]
            simp only [List.flatMap_cons, he, List.singleton_append]
            rw [unescapeIcalList_cons_of_ne c _ hb, ih]

/-- C4. The calendar text escaping escapes backslash first (the composed
replacement passes equal the per-character table, which is only correct
because the backslash pass runs before the passes that introduce
backslashes), and it is recoverable and injective: the inverse
substitutions restore the original string. -/
theorem escape_ical_text_roundtrip (s : String) :
    unescape_ical (escape_ical_text s) = s ∧
    ∀ t : String, escape_ical_text s = escape_ical_text t → s = t := by
  have key : ∀ u : String, unescape_ical (escape_ical_text u) = u := by
    intro u
    show String.mk (unescapeIcalList (String.mk (escapeIcalList u.data)).data) = u
    cases u with
    | mk l =>
      simp only [escapeIcalList_eq_flatMap]
      exact congrArg String.mk (unescape_escape_list l)
  refine ⟨key s, ?_⟩
  intro t h
  have := congrArg unescape_ical h
  rwa [key s, key t] at this

/-- Witness for C4 at a concrete string containing all four special
characters. -/
theorem escape_ical_text_roundtrip_witness :
    unescape_ical (escape_ical_text "a,b;c\\d\ne") = "a,b;c\\d\ne" ∧
    ("a,b;c\\d\ne" : String) = "a,b;c\\d\ne" :=
  ⟨(escape_ical_text_roundtrip "a,b;c\\d\ne").1,
   (escape_ical_text_roundtrip "a,b;c\\d\ne").2 "a,b;c\\d\ne" rfl⟩

/-! ## Regex engines of the source

The source uses four regular expressions; each is embedded as a
deterministic matcher over character lists.  Greedy matching without
backtracking coincides with Python's semantics for these patterns (argued
at each definition). -/

/-- Pattern `(\s*[AaPp][Mm]\.?)*$` — the trailing AM/PM groups of the time regex.
Greedy consumption of the optional dot is safe: a dot can never start the
next group (which needs `[AaPp]` after optional whitespace). -/
def ampmGroupsFuel : Nat → List Char → Bool
  | _, [] => true
  | 0, _ :: _ => false
  | Nat.succ fuel, c :: cs =>
    match (c :: cs).dropWhile pyIsSpace with
    | a :: m :: rest =>
      if (a == 'A' || a == 'a' || a == 'P' || a == 'p') && (m == 'M' || m == 'm') then
        ampmGroupsFuel fuel (if rest.head? = some '.' then rest.tail else rest)
      else false
    | _ => false

/-- Each AM/PM group consumes at least two characters, so fuel equal to
the list length always suffices (the zero-fuel arm is unreachable: the
list empties first and hits the accepting arm). -/
def ampmGroups (cs : List Char) : Bool :=
  ampmGroupsFuel cs.length cs

/-- Is `c` one of the time separators `[:hH]`? -/
def isTimeSep (c : Char) : Bool :=
  c == ':' || c == 'h' || c == 'H'

/-- Match `re.match(r'^\d{1,2}[:hH]\d{2}(\s*[AaPp][Mm]\.?)*$', s)`: one- or
two-digit hour, separator, exactly two minute digits, optional AM/PM
groups.  The only backtracking point in the Python pattern is `\d{1,2}`;
the branch on whether the second character is a digit reproduces it
(if two leading digits are followed by a failing tail, the one-digit
alternative needs the second digit to be a separator, which it is not). -/
def matchTimeLike (cs : List Char) : Bool :=
  match cs with
  | d1 :: rest =>
    d1.isDigit &&
      (match rest with
       | d2 :: sep :: m1 :: m2 :: tail =>
         if d2.isDigit then
           isTimeSep sep && m1.isDigit && m2.isDigit && ampmGroups tail
         else
           isTimeSep d2 && sep.isDigit && m1.isDigit && ampmGroups (m2 :: tail)
       | [sep, m1, m2] => isTimeSep sep && m1.isDigit && m2.isDigit
       | _ => false)
  | [] => false

/-- Classifier `is_time_like(x)` from the source: native time-bearing values are
time-like (`isinstance(x, (pd.Timestamp, datetime, time))`), text is
stripped and matched against the clock regex; `None`/`NaN` and everything
else is not (`str(nan) = "nan"` fails the regex). -/
def is_time_like : Cell → Bool
  | Cell.empty => false
  | Cell.ctime _ => true
  | Cell.cdatetime _ _ => true
  | Cell.cdate d => matchTimeLike (stripList d.render.data)
  | Cell.str s => matchTimeLike (stripList s.data)

/-- Try the pattern `G\s*\.?\s*(\d+)` (case-insensitive) anchored at the
head of `cs`; returns the captured digit run.  Greedy whitespace/dot
consumption agrees with the backtracking regex (skipping the dot cannot
help: `\s*` cannot cross a dot and `\d` rejects it). -/
def matchGAt (cs : List Char) : Option (List Char) :=
  match cs with
  | c :: rest =>
    if c == 'G' || c == 'g' then
      let r1 := rest.dropWhile pyIsSpace
      let r2 := match r1 with
        | '.' :: t => t
        | _ => r1
      let r3 := r2.dropWhile pyIsSpace
      let ds := r3.takeWhile Char.isDigit
      if ds.isEmpty then none else some ds
    else none
  | [] => none

/-- Search `re.search(r'G\s*\.?\s*(\d+)', s, re.I)`: try the anchored match at
every position, left to right. -/
def searchG : List Char → Option (List Char)
  | [] => none
  | c :: rest =>
    match matchGAt (c :: rest) with
    | some ds => some ds
    | none => searchG rest

/-- Case-insensitive literal prefix consumption. -/
def dropCI : List Char → List Char → Option (List Char)
  | [], cs => some cs
  | _ :: _, [] => none
  | p :: ps, c :: cs' => if p.toLower == c.toLower then dropCI ps cs' else none

/-- Match `re.search(r'^(?:groupe)?\s*(\d+)$', s, re.I)`: optional literal
`groupe`, whitespace, then digits to the end.  If consuming `groupe`
fails the rest, the skip-the-group alternative starts at `g`, which
neither `\s*` nor `\d+` accepts, so greedy consumption is faithful. -/
def matchGroupe (cs : List Char) : Option (List Char) :=
  let cs1 := match dropCI ['g', 'r', 'o', 'u', 'p', 'e'] cs with
    | some t => t
    | none => cs
  let cs2 := cs1.dropWhile pyIsSpace
  let ds := cs2.takeWhile Char.isDigit
  if ds.isEmpty then none
  else if (cs2.dropWhile Char.isDigit).isEmpty then some ds else none

/-- Function `normalize_group_label(x)` from the source: `None`/`NaN`/blank yield
no label; a `G⟨ws⟩⟨optional dot⟩⟨ws⟩⟨digits⟩` occurrence anywhere, or a
whole-string optional-`groupe`+digits match, canonicalizes to
`"G ⟨digits⟩"`; any other non-empty text is returned stripped. -/
def normalize_group_label : Cell → Option String
  | Cell.empty => none
  | x =>
    let s := pyStrip (pyStr x)
    if s = "" then none
    else
      match searchG s.data with
      | some ds => some ("G " ++ String.mk ds)
      | none =>
        match matchGroupe s.data with
        | some ds => some ("G " ++ String.mk ds)
        | none => some s

/-! ## Models of the external dateutil parsers

`to_time` and `to_date` fall back to `dateutil.parser.parse` on strings;
that library is outside this repository, so its two uses are modelled by
total functions.  The pipeline only depends on (a) whether these parsers
succeed on the strings the grid feeds them and (b) the parsed value for
genuine clock strings; both are reproduced. -/

/-- Models `dtparser.parse(s, dayfirst=True, fuzzy=True).date()` from the
external dateutil library: fuzzy parsing scans for numeric tokens and
raises (modelled as `none`) when there are none — purely alphabetic text
like a teacher name never parses, while any digit-bearing text (clock
renderings such as "08:00:00", day numbers, etc.) yields a date.  The
resulting date value is only ever used for cells in the date row, which
the concrete developments below always populate with native date cells,
so a fixed placeholder date is returned for digit-bearing text. -/
def fuzzyParseDate (s : String) : Option PDate :=
  if s.data.any Char.isDigit then some ⟨2000, 1, 1⟩ else none

/-- Reads a decimal number from the head of the list. -/
def readNat (cs : List Char) : Option (Nat × List Char) :=
  let ds := cs.takeWhile Char.isDigit
  if ds.isEmpty then none
  else some (ds.foldl (fun n c => n * 10 + (c.toNat - 48)) 0, cs.dropWhile Char.isDigit)

/-- Models `dtparser.parse(s2, dayfirst=True).time()` from the external
dateutil library, for the strings this pipeline feeds it: `s2` is a clock
string with `h`/`H` already replaced by `:`.  `H:MM` (optionally with an
AM/PM suffix, optionally followed by a dot) parses to that time of day,
with dateutil's validity checks (hour < 24 — or a 1–12 hour when a
meridian is present — and minute < 60); anything else raises, modelled as
`none`. -/
def parseClock (s : String) : Option PTime :=
  match readNat s.data with
  | none => none
  | some (h, rest) =>
    match rest with
    | ':' :: rest2 =>
      match readNat rest2 with
      | none => none
      | some (m, rest3) =>
        if m ≥ 60 then none
        else
          match (rest3.dropWhile pyIsSpace).map Char.toLower with
          | [] => if h < 24 then some ⟨h, m⟩ else none
          | ['a', 'm'] | ['a', 'm', '.'] =>
            if 1 ≤ h ∧ h ≤ 12 then some ⟨h % 12, m⟩ else none
          | ['p', 'm'] | ['p', 'm', '.'] =>
            if 1 ≤ h ∧ h ≤ 12 then some ⟨h % 12 + 12, m⟩ else none
          | _ => none
    | _ => none

/-- Function `to_time(x)` from the source: native values give their time component;
text has `h`/`H` replaced by `:` and goes to the (modelled) dateutil
parser; failures are swallowed to `None`. -/
def to_time : Cell → Option PTime
  | Cell.empty => none
  | Cell.ctime t => some t
  | Cell.cdatetime _ t => some t
  | Cell.cdate d =>
    parseClock (String.mk (((stripList d.render.data).map
      (fun c => if c == 'h' || c == 'H' then ':' else c))))
  | Cell.str s =>
    let s1 := stripList s.data
    if s1.isEmpty then none
    else parseClock (String.mk (s1.map (fun c => if c == 'h' || c == 'H' then ':' else c)))

/-- Function `to_date(x)` from the source: native date-bearing values give their
date component; text is stripped and goes to the (modelled) fuzzy dateutil
parser; failures are swallowed to `None`. -/
def to_date : Cell → Option PDate
  | Cell.empty => none
  | Cell.cdatetime d _ => some d
  | Cell.cdate d => some d
  | Cell.ctime t =>
    let s1 := stripList t.render.data
    if s1.isEmpty then none else fuzzyParseDate (String.mk s1)
  | Cell.str s =>
    let s1 := stripList s.data
    if s1.isEmpty then none else fuzzyParseDate (String.mk s1)

/-! ## Grid location (`find_week_rows`, `find_slot_rows`) -/

/-- Match `re.match(r'^\s*⟨letter⟩\s*\d+', s.strip(), re.I)`: prefix match of a
case-insensitive marker letter, optional whitespace, and at least one
digit. -/
def matchMarker (letter : Char) (s : String) : Bool :=
  match (stripList s.data).dropWhile pyIsSpace with
  | c :: rest =>
    (c.toLower == letter) &&
      (match rest.dropWhile pyIsSpace with
       | d :: _ => d.isDigit
       | [] => false)
  | [] => false

/-- Function `find_week_rows(df)`: rows whose column-0 cell is a string matching
the week-marker pattern `^\s*S\s*\d+`. -/
def find_week_rows (g : Grid) : List Nat :=
  (List.range g.nrows).filter (fun i =>
    match g.cell i 0 with
    | Cell.str s => matchMarker 's' s
    | _ => false)

/-- Function `find_slot_rows(df)`: rows whose column-0 cell is a string matching
the slot-marker pattern `^\s*H\s*\d+`. -/
def find_slot_rows (g : Grid) : List Nat :=
  (List.range g.nrows).filter (fun i =>
    match g.cell i 0 with
    | Cell.str s => matchMarker 'h' s
    | _ => false)

/-- Python `max` over a list, `None` when empty. -/
def pyMax : List Nat → Option Nat
  | [] => none
  | x :: xs => some (xs.foldl max x)

/-- The governing week row for slot row `r`: `max({s ∈ s_rows : s ≤ r})`
(`continue` when there is none). -/
def weekFor (g : Grid) (r : Nat) : Option Nat :=
  pyMax ((find_week_rows g).filter (· ≤ r))

/-- Computation `date_cols`: the columns whose date-row cell parses as a date (with
the `date_row < nrows` bound from the comprehension). -/
def dateCols (g : Grid) (date_row : Nat) : List Nat :=
  (List.range g.ncols).filter (fun c =>
    decide (date_row < g.nrows) && (to_date (g.cell date_row c)).isSome)

/-! ## Per-sub-column candidate extraction -/

/-- Helper for `dict.fromkeys(l)`: order-preserving deduplication keeping first
occurrences. -/
def pyDedupAux {α : Type} [DecidableEq α] : List α → List α → List α
  | _, [] => []
  | seen, x :: xs =>
    if x ∈ seen then pyDedupAux seen xs else x :: pyDedupAux (seen ++ [x]) xs

/-- Dedup `list(dict.fromkeys(l))`. -/
def pyDedup {α : Type} [DecidableEq α] (l : List α) : List α :=
  pyDedupAux [] l

/-- The teacher scan: rows `r+2 .. r+5` of the sub-column (guarded by the
source's outer `(r+2) < nrows` check and the in-loop `break` on
`idx >= nrows`), keeping stripped non-empty strings that are neither
time-like nor date-parsable. -/
def teacherScanList (g : Grid) (r col : Nat) : List String :=
  if r + 2 < g.nrows then
    (((List.range 4).map (fun k => r + 2 + k)).takeWhile (· < g.nrows)).filterMap (fun idx =>
      let t := g.cell idx col
      if pdIsna t then none
      else
        let s := pyStrip (pyStr t)
        if s = "" then none
        else if ¬ is_time_like (Cell.str s) ∧ to_date (Cell.str s) = none then some s
        else none)
  else []

/-- The stop index: first row in `r+1 .. r+11` whose cell is time-like
(`break` on `idx >= nrows`), falling back to `min(r+7, nrows)`. -/
def stopIdx (g : Grid) (r col : Nat) : Nat :=
  match (((List.range 11).map (fun k => r + 1 + k)).takeWhile (· < g.nrows)).find?
      (fun idx => is_time_like (g.cell idx col)) with
  | some i => i
  | none => min (r + 7) g.nrows

/-- The description scan: rows strictly between the title row and the stop
index (`break` on `idx >= nrows`), keeping stripped non-empty strings that
are not date-parsable cells, not already-collected teachers and not the
title itself. -/
def descParts (g : Grid) (r col stop : Nat) (teachers : List String)
    (summary_str : String) : List String :=
  ((List.range' (r + 1) (stop - (r + 1))).takeWhile (· < g.nrows)).filterMap (fun idx =>
    let cell := g.cell idx col
    if pdIsna cell then none
    else
      let s := pyStrip (pyStr cell)
      if s = "" then none
      else if (to_date cell).isSome then none
      else if s ∈ teachers ∨ s = summary_str then none
      else some s)

/-- The start/end time loop (`for off in range(1, 13)` with its `break`s):
state is the `start_val` found so far; the first time-like cell becomes
the start, the first later time-like cell with a different raw value
becomes the end. -/
def timeLoop (g : Grid) (col : Nat) : List Nat → Option Cell → Option Cell × Option Cell
  | [], sv => (sv, none)
  | idx :: rest, sv =>
    if g.nrows ≤ idx then (sv, none)
    else
      let v := g.cell idx col
      if is_time_like v then
        match sv with
        | none => timeLoop g col rest (some v)
        | some s => if v = s then timeLoop g col rest (some s) else (some s, some v)
      else timeLoop g col rest sv

/-- Pair `(start_val, end_val)` for slot row `r` and sub-column `col`. -/
def timeScan (g : Grid) (r col : Nat) : Option Cell × Option Cell :=
  timeLoop g col ((List.range 12).map (fun k => r + 1 + k)) none

/-- A merged-cell rectangle from the workbook metadata
(`(r1, c1, r2, c2)`, 0-based). -/
def MRange : Type := Nat × Nat × Nat × Nat

/-- Python string comparison (`sorted` on `str`) is code-point
lexicographic; this is its boolean form on character lists. -/
def listLeB : List Char → List Char → Bool
  | [], _ => true
  | _ :: _, [] => false
  | a :: as, b :: bs =>
    if a.toNat < b.toNat then true
    else if b.toNat < a.toNat then false
    else listLeB as bs

/-- Code-point lexicographic order on strings (Python's `<=` on `str`). -/
def sLe (a b : String) : Prop :=
  listLeB a.data b.data = true

instance : DecidableRel sLe := fun a b => instDecidableEqBool (listLeB a.data b.data) true

theorem listLeB_total (a b : List Char) : listLeB a b = true ∨ listLeB b a = true := by
  induction a generalizing b with
  | nil => left; rfl
  | cons x xs ih =>
    cases b with
    | nil => right; rfl
    | cons y ys =>
      rcases Nat.lt_trichotomy x.toNat y.toNat with h | h | h
      · left; simp [listLeB, h]
      · have hy : ¬ y.toNat < x.toNat := by omega
        have hx : ¬ x.toNat < y.toNat := by omega
        rcases ih ys with h2 | h2
        · left; simp [listLeB, hx, hy, h2]
        · right; simp [listLeB, hx, hy, h2]
      · right; simp [listLeB, h]

theorem char_toNat_inj {a b : Char} (h : a.toNat = b.toNat) : a = b := by
  apply Char.ext
  apply UInt32.ext
  exact h

theorem listLeB_antisymm {a b : List Char} (h1 : listLeB a b = true)
    (h2 : listLeB b a = true) : a = b := by
  induction a generalizing b with
  | nil =>
    cases b with
    | nil => rfl
    | cons y ys => simp [listLeB] at h2
  | cons x xs ih =>
    cases b with
    | nil => simp [listLeB] at h1
    | cons y ys =>
      rcases Nat.lt_trichotomy x.toNat y.toNat with h | h | h
      · have hy : ¬ y.toNat < x.toNat := by omega
        simp [listLeB, h, hy] at h2
      · have hx : ¬ x.toNat < y.toNat := by omega
        have hy : ¬ y.toNat < x.toNat := by omega
        simp only [listLeB, if_neg hx, if_neg hy] at h1
        simp only [listLeB, if_neg hy, if_neg hx] at h2
        rw [char_toNat_inj h, ih h1 h2]
      · have hx : ¬ x.toNat < y.toNat := by omega
        simp [listLeB, h, hx] at h1

theorem listLeB_trans {a b c : List Char} (h1 : listLeB a b = true)
    (h2 : listLeB b c = true) : listLeB a c = true := by
  induction a generalizing b c with
  | nil => rfl
  | cons x xs ih =>
    cases b with
    | nil => simp [listLeB] at h1
    | cons y ys =>
      cases c with
      | nil => simp [listLeB] at h2
      | cons z zs =>
        rcases Nat.lt_trichotomy x.toNat y.toNat with hxy | hxy | hxy <;>
          rcases Nat.lt_trichotomy y.toNat z.toNat with hyz | hyz | hyz
        all_goals simp only [listLeB] at h1 h2 ⊢
        all_goals split_ifs at h1 h2 ⊢ <;> try omega
        all_goals first
          | rfl
          | exact ih h1 h2

instance : IsTotal String sLe :=
  ⟨fun a b => listLeB_total a.data b.data⟩

instance : IsTrans String sLe :=
  ⟨fun _ _ _ h1 h2 => listLeB_trans h1 h2⟩

instance : IsAntisymm String sLe :=
  ⟨fun a b h1 h2 => by
    cases a with
    | mk la =>
      cases b with
      | mk lb => exact congrArg String.mk (listLeB_antisymm h1 h2)⟩

/-- Python `sorted` on a list of strings. -/
def pySortedStr (l : List String) : List String :=
  List.insertionSort sLe l

/-- Python set union / `set.update` on the dedup-list model of sets:
members of `b` not already present are appended. -/
def listUnion {α : Type} [DecidableEq α] (a b : List α) : List α :=
  a ++ b.filter (fun x => x ∉ a)

/-- One entry of `raw_events` (and likewise one value of the `merged`
dict, which has the same shape): a Python `set` is modelled as the
duplicate-free list of its elements (sets are only ever consumed through
membership, union and `sorted`, so the carrier order is irrelevant). -/
structure RawEvent where
  summary : String
  teachers : List String
  descriptions : List String
  start : PDateTime
  end_ : PDateTime
  groups : List String
deriving DecidableEq

/-- The merge key `(e['summary'], e['start'], e['end'])`. -/
def keyOf (e : RawEvent) : String × PDateTime × PDateTime :=
  (e.summary, e.start, e.end_)

/-- Step `if gl: groups.add(gl)` on the dedup-list model of sets. -/
def optInsert : Option String → List String → List String
  | none, s => s
  | some x, s => if x ∈ s then s else s ++ [x]

/-- The body of the innermost `for col in (c, c+1)` loop: produces the
candidate appended to `raw_events`, or `none` for each `continue`. -/
def extractCandidate (g : Grid) (mm : Nat → Nat → Option MRange)
    (date_row group_row c col r : Nat) : Option RawEvent :=
  if g.ncols ≤ col then none
  else
    let summary := g.cell r col
    if pdIsna summary then none
    else
      let summary_str := pyStrip (pyStr summary)
      if summary_str = "" then none
      else
        let teachers := pyDedup (teacherScanList g r col)
        let stop := stopIdx g r col
        let desc_text := String.intercalate " | " (pyDedup (descParts g r col stop teachers summary_str))
        match timeScan g r col with
        | (some start_val, some end_val) =>
          match to_time start_val, to_time end_val with
          | some start_t, some end_t =>
            match to_date (g.cell date_row c) with
            | some d =>
              let gl := normalize_group_label
                (if group_row < g.nrows then g.cell group_row col else Cell.empty)
              let gl_next := normalize_group_label
                (if col + 1 < g.ncols then g.cell group_row (col + 1) else Cell.empty)
              -- the source also reads `right_summary = df.iat[r, col+1]` here
              -- but never uses it afterwards
              let groups : List String :=
                if col = c then
                  if (mm r col).isSome && (mm r (col + 1)).isSome then
                    optInsert gl_next (optInsert gl [])
                  else optInsert gl []
                else optInsert gl []
              some { summary := summary_str,
                     -- `set(teachers)`: `teachers` is already deduplicated
                     teachers := teachers,
                     descriptions := if desc_text = "" then [] else [desc_text],
                     start := ⟨d, start_t⟩,
                     end_ := ⟨d, end_t⟩,
                     groups := groups }
            | none => none
          | _, _ => none
        | _ => none

/-! ## The sheet traversal (`parse_sheet_to_events`, first half) -/

/-- The innermost loop body: append the extracted candidate (tagged with
the in-scope loop variables `(r, c)`), or leave the accumulator alone on
`continue`. -/
def appendCandidate (g : Grid) (mm : Nat → Nat → Option MRange)
    (date_row group_row c r : Nat) (acc : List ((Nat × Nat) × RawEvent)) (col : Nat) :
    List ((Nat × Nat) × RawEvent) :=
  match extractCandidate g mm date_row group_row c col r with
  | none => acc
  | some e => acc ++ [((r, c), e)]

/-- The `raw_events` accumulation loop of `parse_sheet_to_events`,
instrumented with the loop variables `(r, c)` (slot row and DayAnchor
column) that are in scope at each `append`. -/
def taggedRawEvents (g : Grid) (mm : Nat → Nat → Option MRange) :
    List ((Nat × Nat) × RawEvent) :=
  (find_slot_rows g).foldl (fun acc r =>
    match weekFor g r with
    | none => acc
    | some p =>
      (dateCols g (p + 1)).foldl (fun acc2 c =>
        ([c, c + 1]).foldl (appendCandidate g mm (p + 1) (p + 2) c r) acc2) acc) []

/-! ## The group merger and output records -/

/-- Union an event's sets into a `merged` dict value
(the three `merged[key][...].update(...)` lines). -/
def mergeInto (m e : RawEvent) : RawEvent :=
  { m with
    teachers := listUnion m.teachers e.teachers,
    descriptions := listUnion m.descriptions e.descriptions,
    groups := listUnion m.groups e.groups }

/-- The fresh `merged[key]` value created when a key is first seen. -/
def freshFor (e : RawEvent) : RawEvent :=
  { summary := e.summary, teachers := [], descriptions := [],
    start := e.start, end_ := e.end_, groups := [] }

/-- One iteration of the fusion loop over `raw_events`: the `merged` dict
is an insertion-ordered association list. -/
def mergeStep (acc : List ((String × PDateTime × PDateTime) × RawEvent)) (e : RawEvent) :
    List ((String × PDateTime × PDateTime) × RawEvent) :=
  let k := keyOf e
  if acc.any (fun p => p.1 = k) then
    acc.map (fun p => if p.1 = k then (p.1, mergeInto p.2 e) else p)
  else acc ++ [(k, mergeInto (freshFor e) e)]

/-- The full fusion loop. -/
def mergeAssoc (es : List RawEvent) : List ((String × PDateTime × PDateTime) × RawEvent) :=
  es.foldl mergeStep []

/-- One element of the returned event list (the final dict comprehension):
sets are sorted into lists, description fragments are sorted and joined
with `" | "`. -/
structure OutEvent where
  summary : String
  teachers : List String
  description : String
  start : PDateTime
  end_ : PDateTime
  groups : List String
deriving DecidableEq

/-- The final per-value conversion of `parse_sheet_to_events`'s return
comprehension (Python `sorted` on strings is the code-point lexicographic
order `sLe`). -/
def finalize (m : RawEvent) : OutEvent :=
  { summary := m.summary,
    teachers := pySortedStr m.teachers,
    description :=
      if m.descriptions = [] then ""
      else String.intercalate " | " (pySortedStr m.descriptions),
    start := m.start,
    end_ := m.end_,
    groups := pySortedStr m.groups }

/-- Fusion plus output conversion (`merged.values()` in insertion order). -/
def mergeEvents (es : List RawEvent) : List OutEvent :=
  (mergeAssoc es).map (fun p => finalize p.2)

/-- Function `parse_sheet_to_events` on an in-memory grid and merged-cell map. -/
def parse_sheet_to_events (g : Grid) (mm : Nat → Nat → Option MRange) : List OutEvent :=
  mergeEvents ((taggedRawEvents g mm).map Prod.snd)

/-! ## The ICS serializer (`events_to_ics`) -/

/-- Function `build_paris_vtimezone_text()`: a fixed VTIMEZONE block (one `body`
entry, itself containing newlines). -/
def build_paris_vtimezone_text : String :=
  String.intercalate "\n"
    ["BEGIN:VTIMEZONE", "TZID:Europe/Paris", "X-LIC-LOCATION:Europe/Paris",
     "BEGIN:DAYLIGHT", "TZOFFSETFROM:+0100", "TZOFFSETTO:+0200", "TZNAME:CEST",
     "DTSTART:19700329T020000", "RRULE:FREQ=YEARLY;BYMONTH=3;BYDAY=-1SU",
     "END:DAYLIGHT", "BEGIN:STANDARD", "TZOFFSETFROM:+0200", "TZOFFSETTO:+0100",
     "TZNAME:CET", "DTSTART:19701025T030000",
     "RRULE:FREQ=YEARLY;BYMONTH=10;BYDAY=-1SU", "END:STANDARD", "END:VTIMEZONE"]

/-- Rendering `strftime('%Y%m%dT%H%M%S')` of a localized event instant.  The events
this pipeline serializes are naive (`datetime.combine` results), and
`pytz.timezone(...).localize` keeps the wall-clock fields unchanged, so
the rendered text is the naive datetime's own fields (seconds are zero
throughout the pipeline). -/
def fmtDT (dt : PDateTime) : String :=
  pad4 dt.date.year ++ pad2 dt.date.month ++ pad2 dt.date.day ++ "T" ++
    pad2 dt.time.hour ++ pad2 dt.time.minute ++ "00"

/-- The `desc_lines` accumulation for one event, following the source's
sequential `append` calls (Python truthiness: a non-empty string / a
non-empty list; `groups[0]` is only read when `groups` is non-empty). -/
def descLines (ev : OutEvent) : List String :=
  let ls : List String := []
  let ls := if ev.description ≠ "" then ls ++ [ev.description] else ls
  let ls := if ev.teachers ≠ [] then
      ls ++ ["Enseignant(s): " ++ String.intercalate " / " ev.teachers]
    else ls
  let ls := if ev.groups ≠ [] then
      (if ev.groups.length = 1 then ls ++ ["Groupe: " ++ ev.groups.headD ""]
       else ls ++ ["Groupes: " ++ String.intercalate " et " ev.groups])
    else ls
  ls

/-- The eight lines `body.extend([...])` appends for one event.  `uid` is
the freshly drawn `uuid.uuid4()` and `now` the `datetime.utcnow()`
rendering, both supplied as inputs of the embedding since they are the
only non-deterministic reads of the serializer. -/
def eventBlock (tzname : String) (ev : OutEvent) (uid now : String) : List String :=
  ["BEGIN:VEVENT",
   "UID:" ++ uid,
   "DTSTAMP:" ++ now,
   "DTSTART;TZID=" ++ tzname ++ ":" ++ fmtDT ev.start,
   "DTEND;TZID=" ++ tzname ++ ":" ++ fmtDT ev.end_,
   "SUMMARY:" ++ escape_ical_text ev.summary,
   "DESCRIPTION:" ++ escape_ical_text (String.intercalate "\n" (descLines ev)),
   "END:VEVENT"]

/-- Lines `header + body + footer` of `events_to_ics` as the list of joined
pieces; `uids i` / `nows i` are the UID and DTSTAMP drawn for the i-th
event. -/
def icsLines (events : List OutEvent) (uids nows : Nat → String) (tzname : String) :
    List String :=
  ["BEGIN:VCALENDAR", "VERSION:2.0", "PRODID:-//EDT Export//FR", "CALSCALE:GREGORIAN"] ++
  [build_paris_vtimezone_text] ++
  (events.enum.flatMap (fun pe => eventBlock tzname pe.2 (uids pe.1) (nows pe.1))) ++
  ["END:VCALENDAR"]

/-- Function `events_to_ics(events, tzname)`. -/
def events_to_ics (events : List OutEvent) (uids nows : Nat → String)
    (tzname : String) : String :=
  String.intercalate "\n" (icsLines events uids nows tzname)

/-! ## Declarative companions used by the claim statements -/

/-- The row window of the start/end-time loop: offsets `1 .. 12` below
the slot row, cut at the first out-of-grid row (the loop's `break`). -/
def timeWindow (g : Grid) (r : Nat) : List Nat :=
  (((List.range 12).map (fun k => r + 1 + k)).takeWhile (· < g.nrows))

/-- Declarative start value: the first time-classified cell in the
window. -/
def timeStartSpec (g : Grid) (r col : Nat) : Option Cell :=
  ((timeWindow g r).find? (fun i => is_time_like (g.cell i col))).map (g.cell · col)

/-- Declarative end value: the first cell after the start that is
time-classified with a value distinct from the start's. -/
def timeEndSpec (g : Grid) (r col : Nat) : Option Cell :=
  match (timeWindow g r).find? (fun i => is_time_like (g.cell i col)) with
  | none => none
  | some i =>
    ((((timeWindow g r).dropWhile (fun j => ! is_time_like (g.cell j col))).drop 1).find?
        (fun j => is_time_like (g.cell j col) && decide (g.cell j col ≠ g.cell i col))).map
      (g.cell · col)

/-- The candidates one slot row contributes, in declarative form: nothing
without a governing week row; otherwise at most one candidate per
(DayAnchor, sub-column). -/
def rowCandidates (g : Grid) (mm : Nat → Nat → Option MRange) (r : Nat) :
    List ((Nat × Nat) × RawEvent) :=
  match weekFor g r with
  | none => []
  | some p =>
    (dateCols g (p + 1)).flatMap (fun c =>
      ([c, c + 1]).filterMap (fun col =>
        (extractCandidate g mm (p + 1) (p + 2) c col r).map (fun e => ((r, c), e))))

/-! ## Structure of the sheet traversal -/

theorem foldl_appendCandidate (g : Grid) (mm : Nat → Nat → Option MRange)
    (date_row group_row c r : Nat) (l : List Nat) (init : List ((Nat × Nat) × RawEvent)) :
    l.foldl (appendCandidate g mm date_row group_row c r) init
      = init ++ l.filterMap (fun col =>
          (extractCandidate g mm date_row group_row c col r).map (fun e => ((r, c), e))) := by
  induction l generalizing init with
  | nil => simp
  | cons x xs ih =>
    simp only [List.foldl_cons]
    cases hq : extractCandidate g mm date_row group_row c x r with
    | none => rw [appendCandidate, hq, ih]; simp [List.filterMap_cons, hq]
    | some e => rw [appendCandidate, hq, ih]; simp [List.filterMap_cons, hq]

theorem foldl_extendAppend {α β : Type} (F : List β → α → List β) (h : α → List β)
    (hF : ∀ acc x, F acc x = acc ++ h x) (l : List α) (init : List β) :
    l.foldl F init = init ++ l.flatMap h := by
  induction l generalizing init with
  | nil => simp
  | cons x xs ih => simp [List.foldl_cons, hF, ih, List.flatMap_cons, List.append_assoc]

/-- The imperative `raw_events` accumulation equals the flat declarative
traversal: each slot row contributes `rowCandidates`, independently. -/
theorem taggedRawEvents_eq (g : Grid) (mm : Nat → Nat → Option MRange) :
    taggedRawEvents g mm = (find_slot_rows g).flatMap (rowCandidates g mm) := by
  unfold taggedRawEvents
  rw [foldl_extendAppend _ (rowCandidates g mm) ?_ (find_slot_rows g) []]
  · simp
  · intro acc r
    unfold rowCandidates
    cases hp : weekFor g r with
    | none => simp
    | some p =>
      simp only []
      rw [foldl_extendAppend _
            (fun c => ([c, c + 1]).filterMap (fun col =>
              (extractCandidate g mm (p + 1) (p + 2) c col r).map (fun e => ((r, c), e))))
            ?_ (dateCols g (p + 1)) acc]
      intro acc2 c
      exact foldl_appendCandidate g mm (p + 1) (p + 2) c r [c, c + 1] acc2

theorem flatMap_erase_of_nil {α β : Type} [DecidableEq α] (l : List α) (f : α → List β)
    (a : α) (ha : a ∈ l) (hfa : f a = []) :
    l.flatMap f = (l.erase a).flatMap f := by
  induction l with
  | nil => cases ha
  | cons x xs ih =>
    by_cases hx : x = a
    · subst hx
      rw [List.erase_cons_head, List.flatMap_cons, hfa, List.nil_append]
    · have hmem : a ∈ xs := by
        cases List.mem_cons.mp ha with
        | inl h => exact absurd h.symm hx
        | inr h => exact h
      rw [List.erase_cons_tail (by simpa using fun h => hx h),
        List.flatMap_cons, List.flatMap_cons, ih hmem]

/-- C5. Per-sheet extraction is total and compositional: the result is
always the merge of the per-(slot row, DayAnchor, sub-column) optional
extractions, so each sub-column independently contributes at most one
candidate and an unextractable (malformed) sub-column contributes
nothing — it can never abort the sheet. -/
theorem parse_sheet_total_structure (g : Grid) (mm : Nat → Nat → Option MRange) :
    parse_sheet_to_events g mm =
      mergeEvents (((find_slot_rows g).flatMap (rowCandidates g mm)).map Prod.snd) := by
  unfold parse_sheet_to_events
  rw [taggedRawEvents_eq]

/-- C7. A slot-marker row with no week-marker row at or above it yields no
candidates and no error: its contribution is empty and the whole traversal
equals the traversal of the remaining slot rows. -/
theorem slot_without_week_skipped (g : Grid) (mm : Nat → Nat → Option MRange) (r : Nat)
    (hr : r ∈ find_slot_rows g) (hw : (find_week_rows g).filter (· ≤ r) = []) :
    rowCandidates g mm r = [] ∧
    taggedRawEvents g mm = ((find_slot_rows g).erase r).flatMap (rowCandidates g mm) := by
  have h0 : rowCandidates g mm r = [] := by
    unfold rowCandidates weekFor
    rw [hw]
    rfl
  refine ⟨h0, ?_⟩
  rw [taggedRawEvents_eq]
  exact flatMap_erase_of_nil _ _ r hr h0

/-- A sheet whose first slot-marker row (row 0) precedes every week
marker: row 0 must be skipped while the later slot row still extracts. -/
def gNoWeek : Grid :=
  ⟨10, 2, fun r c =>
    match r, c with
    | 0, 0 => Cell.str "H1"
    | 2, 0 => Cell.str "S1"
    | 3, 1 => Cell.cdate ⟨2026, 1, 5⟩
    | 4, 1 => Cell.str "G 1"
    | 5, 0 => Cell.str "H2"
    | 5, 1 => Cell.str "Math"
    | 8, 1 => Cell.ctime ⟨8, 0⟩
    | 9, 1 => Cell.ctime ⟨10, 0⟩
    | _, _ => Cell.empty⟩

/-- The all-`none` merged-cell map (no merged cells in the workbook). -/
def mmNone : Nat → Nat → Option MRange := fun _ _ => none

/-- Witness for C7: on `gNoWeek`, slot row 0 has no week marker at or
above it, contributes nothing, and the traversal equals that of the
remaining slot rows. -/
theorem slot_without_week_skipped_witness :
    rowCandidates gNoWeek mmNone 0 = [] ∧
    taggedRawEvents gNoWeek mmNone =
      ((find_slot_rows gNoWeek).erase 0).flatMap (rowCandidates gNoWeek mmNone) :=
  slot_without_week_skipped gNoWeek mmNone 0 (by decide) (by decide)

/-! ## The start/end time scan (C6) -/

theorem timeLoop_some (g : Grid) (col : Nat) (s : Cell) (l : List Nat) :
    timeLoop g col l (some s) =
      (some s,
        ((l.takeWhile (· < g.nrows)).find?
            (fun j => is_time_like (g.cell j col) && decide (g.cell j col ≠ s))).map
          (g.cell · col)) := by
  induction l with
  | nil => simp [timeLoop]
  | cons idx rest ih =>
    by_cases hge : g.nrows ≤ idx
    · have : ¬ idx < g.nrows := by omega
      simp [timeLoop, hge, List.takeWhile_cons, this]
    · have hlt : idx < g.nrows := by omega
      by_cases htl : is_time_like (g.cell idx col)
      · by_cases heq : g.cell idx col = s
        · simp [timeLoop, hge, htl, heq, List.takeWhile_cons, hlt, List.find?_cons, ih]
        · simp [timeLoop, hge, htl, heq, List.takeWhile_cons, hlt, List.find?_cons]
      · simp [timeLoop, hge, htl, List.takeWhile_cons, hlt, List.find?_cons, ih]

theorem timeLoop_spec (g : Grid) (col : Nat) (l : List Nat) :
    timeLoop g col l none =
      (((l.takeWhile (· < g.nrows)).find? (fun i => is_time_like (g.cell i col))).map
          (g.cell · col),
        match (l.takeWhile (· < g.nrows)).find? (fun i => is_time_like (g.cell i col)) with
        | none => none
        | some i =>
          ((((l.takeWhile (· < g.nrows)).dropWhile
                (fun j => ! is_time_like (g.cell j col))).drop 1).find?
              (fun j => is_time_like (g.cell j col) &&
                decide (g.cell j col ≠ g.cell i col))).map (g.cell · col)) := by
  induction l with
  | nil => simp [timeLoop]
  | cons idx rest ih =>
    by_cases hge : g.nrows ≤ idx
    · have : ¬ idx < g.nrows := by omega
      simp [timeLoop, hge, List.takeWhile_cons, this]
    · have hlt : idx < g.nrows := by omega
      by_cases htl : is_time_like (g.cell idx col)
      · simp only [timeLoop, if_neg hge, htl, List.takeWhile_cons, decide_eq_true_eq,
          if_pos hlt, List.find?_cons, List.dropWhile_cons, Bool.not_true,
          Bool.false_eq_true, List.drop_succ_cons, List.drop_zero]
        rw [timeLoop_some]
        simp
      · simp only [timeLoop, if_neg hge, htl, List.takeWhile_cons, decide_eq_true_eq,
          if_pos hlt, List.find?_cons, Bool.false_eq_true, if_neg htl,
          List.dropWhile_cons, Bool.not_false]
        simpa using ih

/-- C6. The start/end time search: the loop returns exactly the first
time-classified cell of the bounded window as the start and the first
later time-classified cell with a distinct value as the end; if the end
is missing — in particular whenever the window holds fewer than two
distinct time values — the sub-column yields no candidate. -/
theorem time_scan_start_end (g : Grid) (mm : Nat → Nat → Option MRange)
    (date_row group_row c col r : Nat) :
    timeScan g r col = (timeStartSpec g r col, timeEndSpec g r col) ∧
    (timeEndSpec g r col = none →
      extractCandidate g mm date_row group_row c col r = none) ∧
    ((∀ i ∈ timeWindow g r, ∀ j ∈ timeWindow g r,
        is_time_like (g.cell i col) → is_time_like (g.cell j col) →
        g.cell i col = g.cell j col) →
      timeEndSpec g r col = none) := by
  have h1 : timeScan g r col = (timeStartSpec g r col, timeEndSpec g r col) := by
    unfold timeScan timeStartSpec timeEndSpec timeWindow
    exact timeLoop_spec g col _
  refine ⟨h1, fun hend => ?_, fun hall => ?_⟩
  · unfold extractCandidate
    rw [h1, hend]
    split
    · rfl
    split
    · rename_i heq
      simp at heq
    · dsimp only []
      split
      · rfl
      split
      · rfl
      · rfl
  · unfold timeEndSpec
    cases hfind : (timeWindow g r).find? (fun i => is_time_like (g.cell i col)) with
    | none => rfl
    | some i =>
      have hi_mem : i ∈ timeWindow g r := List.mem_of_find?_eq_some hfind
      have hi_tl : is_time_like (g.cell i col) := by
        have := List.find?_some hfind
        simpa using this
      have : (((timeWindow g r).dropWhile (fun j => ! is_time_like (g.cell j col))).drop 1).find?
          (fun j => is_time_like (g.cell j col) && decide (g.cell j col ≠ g.cell i col)) = none := by
        apply List.find?_eq_none.mpr
        intro j hj
        have hj_mem : j ∈ timeWindow g r := by
          have h1 : List.Sublist
              (((timeWindow g r).dropWhile (fun j => ! is_time_like (g.cell j col))).drop 1)
              ((timeWindow g r).dropWhile (fun j => ! is_time_like (g.cell j col))) :=
            List.drop_sublist 1 _
          have h2 : List.Sublist
              ((timeWindow g r).dropWhile (fun j => ! is_time_like (g.cell j col)))
              (timeWindow g r) :=
            (List.dropWhile_suffix _).sublist
          exact (h1.trans h2).mem hj
        simp only [Bool.and_eq_true, decide_eq_true_eq, not_and, Decidable.not_not]
        intro htlj
        exact hall j hj_mem i hi_mem htlj hi_tl
      dsimp only []
      rw [this]
      rfl

/-- A one-column sheet whose scan window holds the same time value twice:
only one distinct time value, so no candidate may arise. -/
def gOneTime : Grid :=
  ⟨3, 1, fun r c =>
    match r, c with
    | 0, 0 => Cell.str "X"
    | 1, 0 => Cell.ctime ⟨8, 0⟩
    | 2, 0 => Cell.ctime ⟨8, 0⟩
    | _, _ => Cell.empty⟩

/-- Witness for C6: on `gOneTime` the scan finds a start but no distinct
end, and the sub-column yields no candidate. -/
theorem time_scan_start_end_witness :
    timeScan gOneTime 0 0 = (timeStartSpec gOneTime 0 0, timeEndSpec gOneTime 0 0) ∧
    timeEndSpec gOneTime 0 0 = none ∧
    extractCandidate gOneTime mmNone 1 2 0 0 0 = none := by
  obtain ⟨h1, h2, h3⟩ := time_scan_start_end gOneTime mmNone 1 2 0 0 0
  have hend : timeEndSpec gOneTime 0 0 = none := h3 (by decide)
  exact ⟨h1, hend, h2 hend⟩

/-! ## Properties of the set and dict models -/

theorem mem_pyDedupAux {α : Type} [DecidableEq α] (l : List α) (seen : List α) (x : α) :
    x ∈ pyDedupAux seen l ↔ x ∈ l ∧ x ∉ seen := by
  induction l generalizing seen with
  | nil => simp [pyDedupAux]
  | cons a t ih =>
    by_cases ha : a ∈ seen
    · rw [show pyDedupAux seen (a :: t) = pyDedupAux seen t from by simp [pyDedupAux, ha]]
      rw [ih]
      by_cases hxa : x = a
      · subst hxa
        simp [ha]
      · simp [List.mem_cons, hxa]
    · rw [show pyDedupAux seen (a :: t) = a :: pyDedupAux (seen ++ [a]) t from by
        simp [pyDedupAux, ha]]
      by_cases hxa : x = a
      · subst hxa
        simp [ha]
      · simp only [List.mem_cons, hxa, false_or, ih, List.mem_append,
          List.mem_singleton, or_false]
        tauto

theorem mem_pyDedup {α : Type} [DecidableEq α] (l : List α) (x : α) :
    x ∈ pyDedup l ↔ x ∈ l := by
  simp [pyDedup, mem_pyDedupAux]

theorem pyDedupAux_nodup {α : Type} [DecidableEq α] (l : List α) (seen : List α) :
    (pyDedupAux seen l).Nodup := by
  induction l generalizing seen with
  | nil => simp [pyDedupAux]
  | cons a t ih =>
    by_cases ha : a ∈ seen
    · simp only [pyDedupAux, if_pos ha]
      exact ih seen
    · simp only [pyDedupAux, if_neg ha, List.nodup_cons]
      refine ⟨?_, ih _⟩
      rw [mem_pyDedupAux]
      rintro ⟨-, hns⟩
      exact hns (by simp)

theorem pyDedup_nodup {α : Type} [DecidableEq α] (l : List α) : (pyDedup l).Nodup :=
  pyDedupAux_nodup l []

theorem pyDedupAux_append_singleton {α : Type} [DecidableEq α] (l : List α) (a : α)
    (seen : List α) :
    pyDedupAux seen (l ++ [a]) =
      if a ∈ seen ∨ a ∈ l then pyDedupAux seen l else pyDedupAux seen l ++ [a] := by
  induction l generalizing seen with
  | nil =>
    by_cases ha : a ∈ seen <;> simp [pyDedupAux, ha]
  | cons x t ih =>
    by_cases hx : x ∈ seen
    · have hstep : pyDedupAux seen (x :: t ++ [a]) = pyDedupAux seen (t ++ [a]) := by
        simp [pyDedupAux, hx]
      rw [hstep, ih]
      have hstep2 : pyDedupAux seen (x :: t) = pyDedupAux seen t := by
        simp [pyDedupAux, hx]
      by_cases hc : a ∈ seen ∨ a ∈ t
      · rw [if_pos hc, if_pos, hstep2]
        rcases hc with h | h
        · exact Or.inl h
        · exact Or.inr (List.mem_cons_of_mem _ h)
      · rw [if_neg hc, if_neg, hstep2]
        rintro (h | h)
        · exact hc (Or.inl h)
        · rcases List.mem_cons.mp h with he | ht
          · exact hc (Or.inl (he ▸ hx))
          · exact hc (Or.inr ht)
    · have hstep : pyDedupAux seen (x :: t ++ [a]) =
          x :: pyDedupAux (seen ++ [x]) (t ++ [a]) := by
        simp [pyDedupAux, hx]
      have hstep2 : pyDedupAux seen (x :: t) = x :: pyDedupAux (seen ++ [x]) t := by
        simp [pyDedupAux, hx]
      rw [hstep, ih, hstep2]
      have hcond : (a ∈ seen ++ [x] ∨ a ∈ t) ↔ (a ∈ seen ∨ a ∈ x :: t) := by
        simp only [List.mem_append, List.mem_singleton, List.mem_cons]
        tauto
      by_cases hc : a ∈ seen ∨ a ∈ x :: t
      · rw [if_pos (hcond.mpr hc), if_pos hc]
      · rw [if_neg (fun h => hc (hcond.mp h)), if_neg hc]
        rfl

theorem pyDedup_append_singleton {α : Type} [DecidableEq α] (l : List α) (a : α) :
    pyDedup (l ++ [a]) = if a ∈ l then pyDedup l else pyDedup l ++ [a] := by
  have := pyDedupAux_append_singleton l a []
  simpa [pyDedup] using this

theorem mem_listUnion {α : Type} [DecidableEq α] (a b : List α) (x : α) :
    x ∈ listUnion a b ↔ x ∈ a ∨ x ∈ b := by
  simp only [listUnion, List.mem_append, List.mem_filter, decide_eq_true_eq]
  by_cases hx : x ∈ a <;> simp [hx]

theorem nodup_listUnion {α : Type} [DecidableEq α] {a b : List α}
    (ha : a.Nodup) (hb : b.Nodup) : (listUnion a b).Nodup := by
  refine List.Nodup.append ha (hb.filter _) ?_
  intro x hxa hxf
  rw [List.mem_filter, decide_eq_true_eq] at hxf
  exact hxf.2 hxa

/-! ## Characterization of the group merger -/

theorem mergeAssoc_append_singleton (es : List RawEvent) (e : RawEvent) :
    mergeAssoc (es ++ [e]) = mergeStep (mergeAssoc es) e := by
  simp [mergeAssoc, List.foldl_append]

theorem anyKey_iff (acc : List ((String × PDateTime × PDateTime) × RawEvent))
    (k : String × PDateTime × PDateTime) :
    (acc.any (fun p => p.1 = k)) = true ↔ k ∈ acc.map Prod.fst := by
  simp only [List.any_eq_true, decide_eq_true_eq, List.mem_map]

/-- The invariant of the fusion loop: keys are the first-occurrence
deduplication of the input keys, and every entry's record carries the key
components and exactly the union of the contributing candidates'
teachers / description-fragments / group-labels. -/
theorem mergeAssoc_spec (es : List RawEvent) :
    (mergeAssoc es).map Prod.fst = pyDedup (es.map keyOf) ∧
    ∀ p ∈ mergeAssoc es,
      p.2.summary = p.1.1 ∧ p.2.start = p.1.2.1 ∧ p.2.end_ = p.1.2.2 ∧
      (∀ x, x ∈ p.2.teachers ↔ ∃ e ∈ es, keyOf e = p.1 ∧ x ∈ e.teachers) ∧
      (∀ x, x ∈ p.2.descriptions ↔ ∃ e ∈ es, keyOf e = p.1 ∧ x ∈ e.descriptions) ∧
      (∀ x, x ∈ p.2.groups ↔ ∃ e ∈ es, keyOf e = p.1 ∧ x ∈ e.groups) := by
  induction es using List.reverseRecOn with
  | nil => exact ⟨rfl, fun p hp => absurd hp (List.not_mem_nil p)⟩
  | append_singleton es e ih =>
    obtain ⟨hkeys, hmem⟩ := ih
    rw [mergeAssoc_append_singleton]
    simp only [mergeStep]
    by_cases hk : keyOf e ∈ (mergeAssoc es).map Prod.fst
    · rw [if_pos ((anyKey_iff _ _).mpr hk)]
      have hkin : keyOf e ∈ es.map keyOf := by
        rw [hkeys] at hk
        exact (mem_pyDedup _ _).mp hk
      constructor
      · rw [List.map_map]
        have : (Prod.fst ∘ fun p => if p.1 = keyOf e then (p.1, mergeInto p.2 e) else p) =
            (Prod.fst : (String × PDateTime × PDateTime) × RawEvent → _) := by
          funext p
          by_cases hp : p.1 = keyOf e <;> simp [hp]
        rw [this, hkeys]
        simp [pyDedup_append_singleton, hkin]
      · intro q hq
        rw [List.mem_map] at hq
        obtain ⟨p, hp, hpq⟩ := hq
        obtain ⟨hs, hst, hen, ht, hd, hg⟩ := hmem p hp
        by_cases hpk : p.1 = keyOf e
        · rw [if_pos hpk] at hpq
          subst hpq
          refine ⟨hs, hst, hen, ?_, ?_, ?_⟩
          · intro x
            rw [mergeInto]
            simp only [mem_listUnion, ht]
            constructor
            · rintro (⟨e', he', hk', hx⟩ | hx)
              · exact ⟨e', List.mem_append_left _ he', hk', hx⟩
              · exact ⟨e, List.mem_append_right _ (by simp), hpk ▸ rfl, hx⟩
            · rintro ⟨e', he', hk', hx⟩
              rcases List.mem_append.mp he' with h | h
              · exact Or.inl ⟨e', h, hk', hx⟩
              · simp only [List.mem_singleton] at h
                subst h
                exact Or.inr hx
          · intro x
            rw [mergeInto]
            simp only [mem_listUnion, hd]
            constructor
            · rintro (⟨e', he', hk', hx⟩ | hx)
              · exact ⟨e', List.mem_append_left _ he', hk', hx⟩
              · exact ⟨e, List.mem_append_right _ (by simp), hpk ▸ rfl, hx⟩
            · rintro ⟨e', he', hk', hx⟩
              rcases List.mem_append.mp he' with h | h
              · exact Or.inl ⟨e', h, hk', hx⟩
              · simp only [List.mem_singleton] at h
                subst h
                exact Or.inr hx
          · intro x
            rw [mergeInto]
            simp only [mem_listUnion, hg]
            constructor
            · rintro (⟨e', he', hk', hx⟩ | hx)
              · exact ⟨e', List.mem_append_left _ he', hk', hx⟩
              · exact ⟨e, List.mem_append_right _ (by simp), hpk ▸ rfl, hx⟩
            · rintro ⟨e', he', hk', hx⟩
              rcases List.mem_append.mp he' with h | h
              · exact Or.inl ⟨e', h, hk', hx⟩
              · simp only [List.mem_singleton] at h
                subst h
                exact Or.inr hx
        · rw [if_neg hpk] at hpq
          subst hpq
          refine ⟨hs, hst, hen, ?_, ?_, ?_⟩
          · intro x
            rw [ht x]
            constructor
            · rintro ⟨e', he', hk', hx⟩
              exact ⟨e', List.mem_append_left _ he', hk', hx⟩
            · rintro ⟨e', he', hk', hx⟩
              rcases List.mem_append.mp he' with h | h
              · exact ⟨e', h, hk', hx⟩
              · simp only [List.mem_singleton] at h
                subst h
                exact absurd hk'.symm hpk
          · intro x
            rw [hd x]
            constructor
            · rintro ⟨e', he', hk', hx⟩
              exact ⟨e', List.mem_append_left _ he', hk', hx⟩
            · rintro ⟨e', he', hk', hx⟩
              rcases List.mem_append.mp he' with h | h
              · exact ⟨e', h, hk', hx⟩
              · simp only [List.mem_singleton] at h
                subst h
                exact absurd hk'.symm hpk
          · intro x
            rw [hg x]
            constructor
            · rintro ⟨e', he', hk', hx⟩
              exact ⟨e', List.mem_append_left _ he', hk', hx⟩
            · rintro ⟨e', he', hk', hx⟩
              rcases List.mem_append.mp he' with h | h
              · exact ⟨e', h, hk', hx⟩
              · simp only [List.mem_singleton] at h
                subst h
                exact absurd hk'.symm hpk
    · rw [if_neg (fun h => hk ((anyKey_iff _ _).mp h))]
      have hknotin : keyOf e ∉ es.map keyOf := by
        rw [hkeys] at hk
        exact fun h => hk ((mem_pyDedup _ _).mpr h)
      constructor
      · simp [List.map_append, hkeys, pyDedup_append_singleton, hknotin]
      · intro q hq
        rcases List.mem_append.mp hq with hql | hqr
        · obtain ⟨hs, hst, hen, ht, hd, hg⟩ := hmem q hql
          have hqk : q.1 ≠ keyOf e := by
            intro heq
            exact hk (heq ▸ List.mem_map_of_mem Prod.fst hql)
          refine ⟨hs, hst, hen, ?_, ?_, ?_⟩
          · intro x
            rw [ht x]
            constructor
            · rintro ⟨e', he', hk', hx⟩
              exact ⟨e', List.mem_append_left _ he', hk', hx⟩
            · rintro ⟨e', he', hk', hx⟩
              rcases List.mem_append.mp he' with h | h
              · exact ⟨e', h, hk', hx⟩
              · simp only [List.mem_singleton] at h
                subst h
                exact absurd hk' hqk.symm
          · intro x
            rw [hd x]
            constructor
            · rintro ⟨e', he', hk', hx⟩
              exact ⟨e', List.mem_append_left _ he', hk', hx⟩
            · rintro ⟨e', he', hk', hx⟩
              rcases List.mem_append.mp he' with h | h
              · exact ⟨e', h, hk', hx⟩
              · simp only [List.mem_singleton] at h
                subst h
                exact absurd hk' hqk.symm
          · intro x
            rw [hg x]
            constructor
            · rintro ⟨e', he', hk', hx⟩
              exact ⟨e', List.mem_append_left _ he', hk', hx⟩
            · rintro ⟨e', he', hk', hx⟩
              rcases List.mem_append.mp he' with h | h
              · exact ⟨e', h, hk', hx⟩
              · simp only [List.mem_singleton] at h
                subst h
                exact absurd hk' hqk.symm
        · simp only [List.mem_singleton] at hqr
          subst hqr
          refine ⟨rfl, rfl, rfl, ?_, ?_, ?_⟩
          · intro x
            simp only [mergeInto, freshFor, mem_listUnion, List.not_mem_nil, false_or]
            constructor
            · intro hx
              exact ⟨e, List.mem_append_right _ (by simp), rfl, hx⟩
            · rintro ⟨e', he', hk', hx⟩
              rcases List.mem_append.mp he' with h | h
              · exact absurd (hk' ▸ List.mem_map_of_mem keyOf h) hknotin
              · simp only [List.mem_singleton] at h
                subst h
                exact hx
          · intro x
            simp only [mergeInto, freshFor, mem_listUnion, List.not_mem_nil, false_or]
            constructor
            · intro hx
              exact ⟨e, List.mem_append_right _ (by simp), rfl, hx⟩
            · rintro ⟨e', he', hk', hx⟩
              rcases List.mem_append.mp he' with h | h
              · exact absurd (hk' ▸ List.mem_map_of_mem keyOf h) hknotin
              · simp only [List.mem_singleton] at h
                subst h
                exact hx
          · intro x
            simp only [mergeInto, freshFor, mem_listUnion, List.not_mem_nil, false_or]
            constructor
            · intro hx
              exact ⟨e, List.mem_append_right _ (by simp), rfl, hx⟩
            · rintro ⟨e', he', hk', hx⟩
              rcases List.mem_append.mp he' with h | h
              · exact absurd (hk' ▸ List.mem_map_of_mem keyOf h) hknotin
              · simp only [List.mem_singleton] at h
                subst h
                exact hx

/-- Fusion preserves the set invariant (no duplicates) of the three
set-valued fields. -/
theorem mergeAssoc_nodup (es : List RawEvent)
    (h : ∀ e ∈ es, e.teachers.Nodup ∧ e.descriptions.Nodup ∧ e.groups.Nodup) :
    ∀ p ∈ mergeAssoc es,
      p.2.teachers.Nodup ∧ p.2.descriptions.Nodup ∧ p.2.groups.Nodup := by
  induction es using List.reverseRecOn with
  | nil => intro p hp; cases hp
  | append_singleton es e ih =>
    have hes : ∀ e' ∈ es, e'.teachers.Nodup ∧ e'.descriptions.Nodup ∧ e'.groups.Nodup :=
      fun e' he' => h e' (List.mem_append_left _ he')
    have he : e.teachers.Nodup ∧ e.descriptions.Nodup ∧ e.groups.Nodup :=
      h e (List.mem_append_right _ (by simp))
    intro p hp
    rw [mergeAssoc_append_singleton] at hp
    simp only [mergeStep] at hp
    by_cases hk : ((mergeAssoc es).any fun q => q.1 = keyOf e) = true
    · rw [if_pos hk] at hp
      rw [List.mem_map] at hp
      obtain ⟨q, hq, hqp⟩ := hp
      have hq' := ih hes q hq
      by_cases hqk : q.1 = keyOf e
      · rw [if_pos hqk] at hqp
        subst hqp
        exact ⟨nodup_listUnion hq'.1 he.1, nodup_listUnion hq'.2.1 he.2.1,
          nodup_listUnion hq'.2.2 he.2.2⟩
      · rw [if_neg hqk] at hqp
        subst hqp
        exact hq'
    · rw [if_neg hk] at hp
      rcases List.mem_append.mp hp with h1 | h1
      · exact ih hes p h1
      · simp only [List.mem_singleton] at h1
        subst h1
        exact ⟨nodup_listUnion List.nodup_nil he.1, nodup_listUnion List.nodup_nil he.2.1,
          nodup_listUnion List.nodup_nil he.2.2⟩

/-- The key of an output event. -/
def outKey (m : OutEvent) : String × PDateTime × PDateTime :=
  (m.summary, m.start, m.end_)

theorem mem_pySortedStr (l : List String) (x : String) :
    x ∈ pySortedStr l ↔ x ∈ l :=
  (List.perm_insertionSort sLe l).mem_iff

theorem sorted_pySortedStr (l : List String) : List.Sorted sLe (pySortedStr l) :=
  List.sorted_insertionSort sLe l

theorem pySortedStr_eq_nil_iff (l : List String) : pySortedStr l = [] ↔ l = [] := by
  constructor
  · intro h
    have hperm := List.perm_insertionSort sLe l
    rw [show List.insertionSort sLe l = pySortedStr l from rfl, h] at hperm
    exact hperm.symm.eq_nil
  · intro h
    subst h
    rfl

theorem nodup_pySortedStr {l : List String} (h : l.Nodup) : (pySortedStr l).Nodup :=
  (List.perm_insertionSort sLe l).symm.nodup_iff.mp h

/-- Two duplicate-free string sets with the same members sort to the same
list. -/
theorem pySortedStr_eq_of_same_mem {a b : List String} (ha : a.Nodup) (hb : b.Nodup)
    (hm : ∀ x, x ∈ a ↔ x ∈ b) : pySortedStr a = pySortedStr b := by
  have hperm : a.Perm b :=
    List.perm_of_nodup_nodup_toFinset_eq ha hb (by ext x; simp [hm x])
  exact List.eq_of_perm_of_sorted
    ((List.perm_insertionSort sLe a).trans (hperm.trans (List.perm_insertionSort sLe b).symm))
    (sorted_pySortedStr a) (sorted_pySortedStr b)

/-- The output keys are the first-occurrence deduplication of the input
keys (shared backbone of the merger's characterization). -/
theorem mergeEvents_map_outKey (es : List RawEvent) :
    (mergeEvents es).map outKey = pyDedup (es.map keyOf) := by
  obtain ⟨hkeys, hmem⟩ := mergeAssoc_spec es
  unfold mergeEvents
  rw [List.map_map, ← hkeys]
  apply List.map_congr_left
  intro p hp
  obtain ⟨hs, hst, hen, -, -, -⟩ := hmem p hp
  simp [outKey, finalize, hs, hst, hen]

/-- C1 (amended). The group merger combines candidates under the key
`(title, start, end)` — slot row and DayAnchor are not part of the key:
the output has exactly one merged session per distinct key of the input,
in first-occurrence order, and that session's teacher, group and
description-fragment sets are exactly the unions of those fields over
the candidates sharing its key. -/
theorem group_merge_amended (es : List RawEvent) :
    (mergeEvents es).map outKey = pyDedup (es.map keyOf) ∧
    ∀ m ∈ mergeEvents es,
      (∀ x, x ∈ m.teachers ↔ ∃ e ∈ es, keyOf e = outKey m ∧ x ∈ e.teachers) ∧
      (∀ x, x ∈ m.groups ↔ ∃ e ∈ es, keyOf e = outKey m ∧ x ∈ e.groups) ∧
      ∃ ds : List String,
        (∀ x, x ∈ ds ↔ ∃ e ∈ es, keyOf e = outKey m ∧ x ∈ e.descriptions) ∧
        m.description = (if ds = [] then "" else String.intercalate " | " ds) := by
  obtain ⟨hkeys, hmem⟩ := mergeAssoc_spec es
  constructor
  · exact mergeEvents_map_outKey es
  · intro m hm
    unfold mergeEvents at hm
    rw [List.mem_map] at hm
    obtain ⟨p, hp, hpm⟩ := hm
    obtain ⟨hs, hst, hen, ht, hd, hg⟩ := hmem p hp
    have hk : outKey m = p.1 := by
      subst hpm
      simp [outKey, finalize, hs, hst, hen]
    refine ⟨?_, ?_, ?_⟩
    · intro x
      subst hpm
      rw [show (finalize p.2).teachers = pySortedStr p.2.teachers from rfl,
        mem_pySortedStr, ht x, hk]
    · intro x
      subst hpm
      rw [show (finalize p.2).groups = pySortedStr p.2.groups from rfl,
        mem_pySortedStr, hg x, hk]
    · refine ⟨pySortedStr p.2.descriptions, ?_, ?_⟩
      · intro x
        rw [mem_pySortedStr, hd x, hk]
      · subst hpm
        show (if p.2.descriptions = [] then "" else _) = _
        by_cases hnil : p.2.descriptions = []
        · rw [if_pos hnil, if_pos (by rw [pySortedStr_eq_nil_iff]; exact hnil)]
        · rw [if_neg hnil, if_neg (by rw [pySortedStr_eq_nil_iff]; exact hnil)]

/-- Scenario with two DayAnchor columns (2 and 5) carrying the same date,
identical titles and identical times: candidates from different DayAnchors
that agree on `(title, start, end)`. -/
def gTwoAnchors : Grid :=
  ⟨8, 6, fun r c =>
    match r, c with
    | 0, 0 => Cell.str "S1"
    | 1, 2 => Cell.cdate ⟨2026, 1, 5⟩
    | 1, 5 => Cell.cdate ⟨2026, 1, 5⟩
    | 2, 2 => Cell.str "G 1"
    | 2, 5 => Cell.str "G 2"
    | 3, 0 => Cell.str "H1"
    | 3, 2 => Cell.str "Math"
    | 3, 5 => Cell.str "Math"
    | 6, 2 => Cell.ctime ⟨8, 0⟩
    | 7, 2 => Cell.ctime ⟨10, 0⟩
    | 6, 5 => Cell.ctime ⟨8, 0⟩
    | 7, 5 => Cell.ctime ⟨10, 0⟩
    | _, _ => Cell.empty⟩

/-- Counterexample to C1 as stated: on `gTwoAnchors` two candidates arise
at distinct (slot row, DayAnchor) origins — `(3, 2)` and `(3, 5)` — with
the same `(title, start, end)`; a five-component key would keep them
apart, but the code merges them into a single session (whose group set
even mixes both anchors' labels). -/
theorem group_merge_counterexample :
    (taggedRawEvents gTwoAnchors mmNone).map Prod.fst = [(3, 2), (3, 5)] ∧
    (taggedRawEvents gTwoAnchors mmNone).map (fun t => keyOf t.2) =
      [("Math", ⟨⟨2026, 1, 5⟩, ⟨8, 0⟩⟩, ⟨⟨2026, 1, 5⟩, ⟨10, 0⟩⟩),
       ("Math", ⟨⟨2026, 1, 5⟩, ⟨8, 0⟩⟩, ⟨⟨2026, 1, 5⟩, ⟨10, 0⟩⟩)] ∧
    (parse_sheet_to_events gTwoAnchors mmNone).length = 1 ∧
    (parse_sheet_to_events gTwoAnchors mmNone).map OutEvent.groups = [["G 1", "G 2"]] := by
  exact ⟨by decide, by decide, by decide, by decide⟩

/-- A permutation of key lists lifts to the carrier lists when keys are
duplicate-free and entries are determined by their keys. -/
theorem perm_of_map_perm {β κ : Type} [DecidableEq κ] (l1 : List β) :
    ∀ (l2 : List β) (f : β → κ), (l1.map f).Perm (l2.map f) → (l1.map f).Nodup →
      (∀ a ∈ l1, ∀ b ∈ l2, f a = f b → a = b) → l1.Perm l2 := by
  induction l1 with
  | nil =>
    intro l2 f hp _ _
    have h2 : l2.map f = [] := hp.symm.eq_nil
    have : l2 = [] := by
      cases l2 with
      | nil => rfl
      | cons b t => cases h2
    subst this
    rfl
  | cons a t ih =>
    intro l2 f hp h1 hdet
    have hfa : f a ∈ l2.map f := hp.subset (by simp)
    rw [List.mem_map] at hfa
    obtain ⟨b, hb, hfb⟩ := hfa
    have hab : a = b := hdet a (by simp) b hb hfb.symm
    subst hab
    obtain ⟨s, t2, hl2⟩ := List.append_of_mem hb
    subst hl2
    have hmid : ((s ++ a :: t2).map f).Perm (f a :: (s ++ t2).map f) := by
      simp only [List.map_append, List.map_cons]
      exact List.perm_middle
    have hp2 : (t.map f).Perm ((s ++ t2).map f) := (hp.trans hmid).cons_inv
    have h1t : (t.map f).Nodup := (List.nodup_cons.mp h1).2
    have hdet2 : ∀ x ∈ t, ∀ y ∈ s ++ t2, f x = f y → x = y := by
      intro x hx y hy hxy
      refine hdet x (by simp [hx]) y ?_ hxy
      rcases List.mem_append.mp hy with h | h
      · exact List.mem_append_left _ h
      · exact List.mem_append_right _ (List.mem_cons_of_mem _ h)
    exact ((ih (s ++ t2) f hp2 h1t hdet2).cons a).trans List.perm_middle.symm

/-- C10. Every event returned by per-sheet extraction carries its teacher
list, group-label list and description fragments (before joining) in
sorted order, and consequently the merged output for a given candidate
multiset is permutation-invariant: reordering the candidates encountered
in the grid permutes the merged sessions without changing any of them. -/
theorem merged_output_sorted_invariant (g : Grid) (mm : Nat → Nat → Option MRange)
    (es es' : List RawEvent) (hperm : es.Perm es')
    (hsets : ∀ e ∈ es, e.teachers.Nodup ∧ e.descriptions.Nodup ∧ e.groups.Nodup) :
    (∀ ev ∈ parse_sheet_to_events g mm,
      List.Sorted sLe ev.teachers ∧ List.Sorted sLe ev.groups ∧
      ∃ ds : List String, List.Sorted sLe ds ∧
        ev.description = (if ds = [] then "" else String.intercalate " | " ds)) ∧
    (mergeEvents es).Perm (mergeEvents es') := by
  constructor
  · intro ev hev
    unfold parse_sheet_to_events mergeEvents at hev
    rw [List.mem_map] at hev
    obtain ⟨p, -, hpm⟩ := hev
    subst hpm
    refine ⟨sorted_pySortedStr _, sorted_pySortedStr _,
      pySortedStr p.2.descriptions, sorted_pySortedStr _, ?_⟩
    show (if p.2.descriptions = [] then "" else _) = _
    by_cases hnil : p.2.descriptions = []
    · rw [if_pos hnil, if_pos (by rw [pySortedStr_eq_nil_iff]; exact hnil)]
    · rw [if_neg hnil, if_neg (by rw [pySortedStr_eq_nil_iff]; exact hnil)]
  · have hsets' : ∀ e ∈ es', e.teachers.Nodup ∧ e.descriptions.Nodup ∧ e.groups.Nodup :=
      fun e he => hsets e (hperm.symm.subset he)
    obtain ⟨hkeys, hmem⟩ := mergeAssoc_spec es
    obtain ⟨hkeys', hmem'⟩ := mergeAssoc_spec es'
    have hok := mergeEvents_map_outKey es
    have hok' := mergeEvents_map_outKey es'
    have hnodup : ((mergeEvents es).map outKey).Nodup := by
      rw [hok]
      exact pyDedup_nodup _
    have hkperm : ((mergeEvents es).map outKey).Perm ((mergeEvents es').map outKey) := by
      rw [hok, hok']
      apply List.perm_of_nodup_nodup_toFinset_eq (pyDedup_nodup _) (pyDedup_nodup _)
      ext k
      simp only [List.mem_toFinset, mem_pyDedup]
      exact ⟨fun h => (hperm.map keyOf).subset h, fun h => (hperm.map keyOf).symm.subset h⟩
    apply perm_of_map_perm _ _ outKey hkperm hnodup
    intro m hm m' hm' hkeq
    unfold mergeEvents at hm hm'
    rw [List.mem_map] at hm hm'
    obtain ⟨p, hp, hpm⟩ := hm
    obtain ⟨q, hq, hqm⟩ := hm'
    obtain ⟨hs, hst, hen, ht, hd, hg⟩ := hmem p hp
    obtain ⟨hs', hst', hen', ht', hd', hg'⟩ := hmem' q hq
    have hpn := mergeAssoc_nodup es hsets p hp
    have hqn := mergeAssoc_nodup es' hsets' q hq
    have hkp : outKey m = p.1 := by
      subst hpm
      simp [outKey, finalize, hs, hst, hen]
    have hkq : outKey m' = q.1 := by
      subst hqm
      simp [outKey, finalize, hs', hst', hen']
    have hkey : p.1 = q.1 := by rw [← hkp, ← hkq, hkeq]
    have hex : ∀ (f : RawEvent → List String) (x : String),
        (∃ e ∈ es, keyOf e = p.1 ∧ x ∈ f e) ↔ (∃ e ∈ es', keyOf e = q.1 ∧ x ∈ f e) := by
      intro f x
      rw [hkey]
      exact ⟨fun ⟨e, he, hk, hx⟩ => ⟨e, hperm.subset he, hk, hx⟩,
        fun ⟨e, he, hk, hx⟩ => ⟨e, hperm.symm.subset he, hk, hx⟩⟩
    have htm : ∀ x, x ∈ p.2.teachers ↔ x ∈ q.2.teachers := by
      intro x
      rw [ht x, ht' x]
      exact hex RawEvent.teachers x
    have hdm : ∀ x, x ∈ p.2.descriptions ↔ x ∈ q.2.descriptions := by
      intro x
      rw [hd x, hd' x]
      exact hex RawEvent.descriptions x
    have hgm : ∀ x, x ∈ p.2.groups ↔ x ∈ q.2.groups := by
      intro x
      rw [hg x, hg' x]
      exact hex RawEvent.groups x
    subst hpm
    subst hqm
    simp only [finalize, OutEvent.mk.injEq]
    refine ⟨?_, ?_, ?_, ?_, ?_, ?_⟩
    · rw [hs, hs', hkey]
    · exact pySortedStr_eq_of_same_mem hpn.1 hqn.1 htm
    · have hds := pySortedStr_eq_of_same_mem hpn.2.1 hqn.2.1 hdm
      have hnil : p.2.descriptions = [] ↔ q.2.descriptions = [] := by
        constructor
        · intro h
          apply List.eq_nil_iff_forall_not_mem.mpr
          intro x hx
          exact List.eq_nil_iff_forall_not_mem.mp h x ((hdm x).mpr hx)
        · intro h
          apply List.eq_nil_iff_forall_not_mem.mpr
          intro x hx
          exact List.eq_nil_iff_forall_not_mem.mp h x ((hdm x).mp hx)
      by_cases hn : p.2.descriptions = []
      · rw [if_pos hn, if_pos (hnil.mp hn)]
      · rw [if_neg hn, if_neg (fun h => hn (hnil.mpr h)), hds]
    · rw [hst, hst', hkey]
    · rw [hen, hen', hkey]
    · exact pySortedStr_eq_of_same_mem hpn.2.2 hqn.2.2 hgm

/-- Witness for C10 at a concrete pair of permuted candidate lists. -/
def rawA : RawEvent :=
  { summary := "Math", teachers := ["Dupont"], descriptions := [],
    start := ⟨⟨2026, 1, 5⟩, ⟨8, 0⟩⟩, end_ := ⟨⟨2026, 1, 5⟩, ⟨10, 0⟩⟩, groups := ["G 1"] }

def rawB : RawEvent :=
  { summary := "Math", teachers := ["Martin"], descriptions := ["TD"],
    start := ⟨⟨2026, 1, 5⟩, ⟨8, 0⟩⟩, end_ := ⟨⟨2026, 1, 5⟩, ⟨10, 0⟩⟩, groups := ["G 2"] }

theorem merged_output_sorted_invariant_witness :
    (∀ ev ∈ parse_sheet_to_events gTwoAnchors mmNone,
      List.Sorted sLe ev.teachers ∧ List.Sorted sLe ev.groups ∧
      ∃ ds : List String, List.Sorted sLe ds ∧
        ev.description = (if ds = [] then "" else String.intercalate " | " ds)) ∧
    (mergeEvents [rawA, rawB]).Perm (mergeEvents [rawB, rawA]) :=
  merged_output_sorted_invariant gTwoAnchors mmNone [rawA, rawB] [rawB, rawA]
    (by decide) (by decide)

/-! ## Serializer determinism (C9) -/

/-- Two serializer output lines agree unless both are UID lines or both
are DTSTAMP lines. -/
def icsLineRel (a b : String) : Prop :=
  a = b ∨ (∃ u v, a = "UID:" ++ u ∧ b = "UID:" ++ v) ∨
    (∃ u v, a = "DTSTAMP:" ++ u ∧ b = "DTSTAMP:" ++ v)

theorem eventBlock_rel (tz : String) (ev : OutEvent) (u1 n1 u2 n2 : String) :
    List.Forall₂ icsLineRel (eventBlock tz ev u1 n1) (eventBlock tz ev u2 n2) := by
  refine .cons (Or.inl rfl) (.cons ?_ (.cons ?_ (.cons (Or.inl rfl)
    (.cons (Or.inl rfl) (.cons (Or.inl rfl) (.cons (Or.inl rfl)
      (.cons (Or.inl rfl) .nil)))))))
  · exact Or.inr (Or.inl ⟨u1, u2, rfl, rfl⟩)
  · exact Or.inr (Or.inr ⟨n1, n2, rfl, rfl⟩)

theorem enumFrom_blocks_rel (tz : String) (u1 n1 u2 n2 : Nat → String)
    (events : List OutEvent) (k : Nat) :
    List.Forall₂ icsLineRel
      ((List.enumFrom k events).flatMap (fun pe => eventBlock tz pe.2 (u1 pe.1) (n1 pe.1)))
      ((List.enumFrom k events).flatMap (fun pe => eventBlock tz pe.2 (u2 pe.1) (n2 pe.1))) := by
  induction events generalizing k with
  | nil => exact .nil
  | cons ev evs ih =>
    simp only [List.enumFrom_cons, List.flatMap_cons]
    exact List.rel_append (eventBlock_rel tz ev (u1 k) (n1 k) (u2 k) (n2 k)) (ih (k + 1))

/-- C9. Serializing the same event list twice is deterministic in
everything except the freshly drawn UID and DTSTAMP lines: the two line
lists have the same length and agree pointwise, except that a differing
position can only be a UID line in both outputs or a DTSTAMP line in
both outputs. -/
theorem events_to_ics_deterministic (events : List OutEvent)
    (u1 n1 u2 n2 : Nat → String) (tz : String) :
    events_to_ics events u1 n1 tz = String.intercalate "\n" (icsLines events u1 n1 tz) ∧
    List.Forall₂ icsLineRel (icsLines events u1 n1 tz) (icsLines events u2 n2 tz) := by
  refine ⟨rfl, ?_⟩
  unfold icsLines
  refine List.rel_append (List.rel_append ?_ ?_) ?_
  · exact List.forall₂_same.mpr (fun a _ => Or.inl rfl)
  · simpa using enumFrom_blocks_rel tz u1 n1 u2 n2 events 0
  · exact List.forall₂_same.mpr (fun a _ => Or.inl rfl)

/-! ## Description serialization (C3) -/

/-- C3 (amended). The serialized DESCRIPTION field is the escape of the
newline-join of, in this fixed order: (a) the merged description text
when non-empty; (b) the line `"Enseignant(s): "` with the teachers joined
by `" / "`, present exactly when the teacher list is non-empty; (c) a
group line that is `"Groupe: X"` for exactly one label, `"Groupes: ..."`
with labels joined by `" et "` for several, and absent for none.  (The
source labels the lines in French; the spec's `Teacher(s):` / `Group:` /
`" and "` wording does not occur in the output.) -/
theorem description_serialization (ev : OutEvent) (uid now tz : String) :
    (eventBlock tz ev uid now).get? 6 =
      some ("DESCRIPTION:" ++ escape_ical_text (String.intercalate "\n" (descLines ev))) ∧
    descLines ev =
      (if ev.description = "" then [] else [ev.description]) ++
      (if ev.teachers = [] then []
       else ["Enseignant(s): " ++ String.intercalate " / " ev.teachers]) ++
      (match ev.groups with
       | [] => []
       | [gp] => ["Groupe: " ++ gp]
       | gps => ["Groupes: " ++ String.intercalate " et " gps]) := by
  refine ⟨rfl, ?_⟩
  unfold descLines
  by_cases h1 : ev.description = "" <;> by_cases h2 : ev.teachers = [] <;>
    cases hg : ev.groups with
  | nil => simp [h1, h2, hg]
  | cons gphead gptail => cases gptail <;> simp [h1, h2, hg]

/-- The concrete merged session of the spec's Scenario A. -/
def evScenA : OutEvent :=
  { summary := "Math", teachers := ["Dupont"], description := "",
    start := ⟨⟨2026, 1, 5⟩, ⟨8, 0⟩⟩, end_ := ⟨⟨2026, 1, 5⟩, ⟨10, 0⟩⟩,
    groups := ["G 1"] }

/-- Counterexample to C3 as stated: the description of Scenario A's event
is built from the French labels; it is not the claimed
`"Teacher(s): ..."` / `"Group: ..."` text. -/
theorem description_serialization_counterexample :
    String.intercalate "\n" (descLines evScenA) = "Enseignant(s): Dupont\nGroupe: G 1" ∧
    ("Enseignant(s): Dupont\nGroupe: G 1" : String) ≠ "Teacher(s): Dupont\nGroup: G 1" := by
  exact ⟨by decide, by decide⟩

/-! ## Whole-class detection (C2) -/

/-- C2 (amended). For a primary sub-column (`col = c`) that yields a
candidate, both group labels are attached exactly when the merged-cell
metadata covers the title cell and its right sibling; in every other case
— in particular when the sibling title is empty and the two labels are
present and differ, but no merged-cell metadata exists — only the
column's own label is attached.  A sibling with an empty title yields no
candidate of its own. -/
theorem whole_class_by_metadata (g : Grid) (mm : Nat → Nat → Option MRange)
    (date_row group_row c r : Nat) (e : RawEvent)
    (h : extractCandidate g mm date_row group_row c c r = some e) :
    (((mm r c).isSome && (mm r (c + 1)).isSome) = true →
      e.groups = optInsert
        (normalize_group_label (if c + 1 < g.ncols then g.cell group_row (c + 1) else Cell.empty))
        (optInsert
          (normalize_group_label (if group_row < g.nrows then g.cell group_row c else Cell.empty))
          [])) ∧
    (((mm r c).isSome && (mm r (c + 1)).isSome) = false →
      e.groups = optInsert
        (normalize_group_label (if group_row < g.nrows then g.cell group_row c else Cell.empty))
        []) ∧
    (∀ col, (pdIsna (g.cell r col) = true ∨ pyStrip (pyStr (g.cell r col)) = "") →
      extractCandidate g mm date_row group_row c col r = none) := by
  refine ⟨?_, ?_, ?_⟩
  · intro hcond
    unfold extractCandidate at h
    dsimp only [] at h
    repeat' split at h
    all_goals try exact Option.noConfusion h
    all_goals (have he := Option.some.inj h; subst he; repeat' split; all_goals simp_all)
  · intro hcond
    unfold extractCandidate at h
    dsimp only [] at h
    repeat' split at h
    all_goals try exact Option.noConfusion h
    all_goals (have he := Option.some.inj h; subst he; repeat' split; all_goals simp_all)
  · intro col hcol
    unfold extractCandidate
    dsimp only []
    repeat' split
    all_goals try rfl
    all_goals
      exfalso
      rcases hcol with hh | hh
      · exact (by assumption : ¬ pdIsna (g.cell r col) = true) hh
      · exact (by assumption : ¬ pyStrip (pyStr (g.cell r col)) = "") hh

/-- The spec's Scenario C grid: empty sibling title at `(3, 3)`, group
labels `"G 1"` / `"G 2"` present and different, and no merged-cell
metadata. -/
def gScenC : Grid :=
  ⟨8, 4, fun r c =>
    match r, c with
    | 0, 0 => Cell.str "S1"
    | 1, 2 => Cell.cdate ⟨2026, 1, 5⟩
    | 2, 2 => Cell.str "G 1"
    | 2, 3 => Cell.str "G 2"
    | 3, 0 => Cell.str "H1"
    | 3, 2 => Cell.str "Math"
    | 6, 2 => Cell.ctime ⟨8, 0⟩
    | 7, 2 => Cell.ctime ⟨10, 0⟩
    | _, _ => Cell.empty⟩

/-- Counterexample to C2 as stated: on Scenario C's grid the claimed
precondition holds (empty sibling title, both labels present and
different, no merged-cell metadata), yet the single extracted candidate
carries only `"G 1"`, not both labels. -/
theorem whole_class_heuristic_counterexample :
    pdIsna (gScenC.cell 3 3) = true ∧
    normalize_group_label (gScenC.cell 2 2) = some "G 1" ∧
    normalize_group_label (gScenC.cell 2 3) = some "G 2" ∧
    (parse_sheet_to_events gScenC mmNone).map OutEvent.groups = [["G 1"]] ∧
    (["G 1"] : List String) ≠ ["G 1", "G 2"] := by
  exact ⟨by decide, by decide, by decide, by decide, by decide⟩

/-- Scenario C's workbook metadata when the title cell really is merged
across both sub-columns. -/
def mmScenC : Nat → Nat → Option MRange :=
  fun r c => if r = 3 ∧ (c = 2 ∨ c = 3) then some ((3, 2, 3, 3) : Nat × Nat × Nat × Nat) else none

/-- The candidate extracted from Scenario C's primary sub-column when the
merged-cell metadata is present. -/
def evScenCMerged : RawEvent :=
  { summary := "Math", teachers := [], descriptions := [],
    start := ⟨⟨2026, 1, 5⟩, ⟨8, 0⟩⟩, end_ := ⟨⟨2026, 1, 5⟩, ⟨10, 0⟩⟩,
    groups := ["G 1", "G 2"] }

/-- Witness for C2 (amended): with the merged-cell metadata present the
candidate carries both labels, and the empty-titled sibling column yields
no candidate. -/
theorem whole_class_by_metadata_witness :
    evScenCMerged.groups = optInsert
      (normalize_group_label (if 2 + 1 < gScenC.ncols then gScenC.cell 2 (2 + 1) else Cell.empty))
      (optInsert
        (normalize_group_label (if 2 < gScenC.nrows then gScenC.cell 2 2 else Cell.empty))
        []) ∧
    extractCandidate gScenC mmScenC 1 2 2 3 3 = none := by
  obtain ⟨h1, h2, h3⟩ := whole_class_by_metadata gScenC mmScenC 1 2 2 3 evScenCMerged (by decide)
  exact ⟨h1 (by decide), h3 3 (Or.inl (by decide))⟩

/-! ## Group-label normalization (C8) -/

theorem takeWhile_all_digits (cs : List Char) :
    (cs.takeWhile Char.isDigit).all Char.isDigit = true := by
  rw [List.all_eq_true]
  intro x hx
  exact List.mem_takeWhile_imp hx

theorem matchGAt_spec {cs ds : List Char} (h : matchGAt cs = some ds) :
    ds ≠ [] ∧ ds.all Char.isDigit = true ∧ List.IsInfix ds cs := by
  cases cs with
  | nil => cases h
  | cons c rest =>
    by_cases hg : (c == 'G' || c == 'g') = true
    · simp only [matchGAt, hg, if_true] at h
      split at h
      · exact Option.noConfusion h
      · rename_i hne
        have hd := Option.some.inj h
        subst hd
        refine ⟨?_, takeWhile_all_digits _, ?_⟩
        · intro hnil
          rw [hnil] at hne
          simp at hne
        · have hsuf2 : List.IsSuffix
              (match rest.dropWhile pyIsSpace with
               | '.' :: t => t
               | _ => rest.dropWhile pyIsSpace) (rest.dropWhile pyIsSpace) := by
            split
            · rename_i t heq
              rw [heq]
              exact List.suffix_cons '.' t
            · exact List.suffix_refl _
          have hsuf : List.IsSuffix
              ((match rest.dropWhile pyIsSpace with
                | '.' :: t => t
                | _ => rest.dropWhile pyIsSpace).dropWhile pyIsSpace) (c :: rest) :=
            ((List.dropWhile_suffix _).trans hsuf2).trans
              ((List.dropWhile_suffix _).trans (List.suffix_cons c rest))
          exact (List.takeWhile_prefix _).isInfix.trans hsuf.isInfix
    · simp only [matchGAt, hg] at h
      simp at h

theorem searchG_spec {cs ds : List Char} (h : searchG cs = some ds) :
    ds ≠ [] ∧ ds.all Char.isDigit = true ∧ List.IsInfix ds cs := by
  induction cs with
  | nil => cases h
  | cons c rest ih =>
    unfold searchG at h
    cases hm : matchGAt (c :: rest) with
    | some ds2 =>
      rw [hm] at h
      have hd := Option.some.inj h
      subst hd
      exact matchGAt_spec hm
    | none =>
      rw [hm] at h
      obtain ⟨hne, hdig, s, t, hst⟩ := ih h
      exact ⟨hne, hdig, c :: s, t, by rw [← hst]; rfl⟩

theorem matchGroupe_spec {cs ds : List Char} (h : matchGroupe cs = some ds) :
    ds ≠ [] ∧ ds.all Char.isDigit = true := by
  unfold matchGroupe at h
  dsimp only [] at h
  split at h
  · exact Option.noConfusion h
  · split at h
    · rename_i hne _
      have hd := Option.some.inj h
      subst hd
      refine ⟨?_, takeWhile_all_digits _⟩
      intro hnil
      rw [hnil] at hne
      simp at hne
    · exact Option.noConfusion h

/-- C8 (amended). Group-label normalization: empty or blank cells yield no
label; if the case-insensitive pattern `G`, optional whitespace, optional
dot, optional whitespace, digits occurs anywhere in the stripped text, the
result is `"G "` followed by the first such digit run (a digit infix of
the text); otherwise if the whole stripped text is the optional
case-insensitive word `groupe`, whitespace, and digits, the result is
`"G "` followed by those digits; any other non-empty text is returned
stripped but otherwise unchanged.  (The pattern word is the French
`groupe`; the bare letter `G` is also recognized mid-text.) -/
theorem normalize_group_label_spec (x : Cell) :
    normalize_group_label Cell.empty = none ∧
    (x ≠ Cell.empty →
      (pyStrip (pyStr x) = "" → normalize_group_label x = none) ∧
      (∀ ds, searchG (pyStrip (pyStr x)).data = some ds →
        normalize_group_label x = some ("G " ++ String.mk ds) ∧
        ds ≠ [] ∧ ds.all Char.isDigit = true ∧ List.IsInfix ds (pyStrip (pyStr x)).data) ∧
      (searchG (pyStrip (pyStr x)).data = none →
        ∀ ds, matchGroupe (pyStrip (pyStr x)).data = some ds →
          normalize_group_label x = some ("G " ++ String.mk ds) ∧
          ds ≠ [] ∧ ds.all Char.isDigit = true) ∧
      (searchG (pyStrip (pyStr x)).data = none →
        matchGroupe (pyStrip (pyStr x)).data = none →
        pyStrip (pyStr x) ≠ "" →
        normalize_group_label x = some (pyStrip (pyStr x)))) := by
  refine ⟨rfl, fun hx => ⟨?_, ?_, ?_, ?_⟩⟩
  · intro hblank
    cases x <;> simp_all [normalize_group_label]
  · intro ds hds
    have hnn := searchG_spec hds
    have : normalize_group_label x = some ("G " ++ String.mk ds) := by
      have hblank : pyStrip (pyStr x) ≠ "" := by
        intro hb
        rw [hb] at hds
        cases hds
      cases x with
      | empty => exact absurd rfl hx
      | str s => simp [normalize_group_label, hblank, hds]
      | cdate d => simp [normalize_group_label, hblank, hds]
      | ctime t => simp [normalize_group_label, hblank, hds]
      | cdatetime d t => simp [normalize_group_label, hblank, hds]
    exact ⟨this, hnn⟩
  · intro hsg ds hds
    have hnn := matchGroupe_spec hds
    have hblank : pyStrip (pyStr x) ≠ "" := by
      intro hb
      rw [hb] at hds
      cases hds
    have : normalize_group_label x = some ("G " ++ String.mk ds) := by
      cases x with
      | empty => exact absurd rfl hx
      | str s => simp [normalize_group_label, hblank, hsg, hds]
      | cdate d => simp [normalize_group_label, hblank, hsg, hds]
      | ctime t => simp [normalize_group_label, hblank, hsg, hds]
      | cdatetime d t => simp [normalize_group_label, hblank, hsg, hds]
    exact ⟨this, hnn⟩
  · intro hsg hmg hblank
    cases x with
    | empty => exact absurd rfl hx
    | str s => simp [normalize_group_label, hblank, hsg, hmg]
    | cdate d => simp [normalize_group_label, hblank, hsg, hmg]
    | ctime t => simp [normalize_group_label, hblank, hsg, hmg]
    | cdatetime d t => simp [normalize_group_label, hblank, hsg, hmg]

/-- Counterexample to C8 as stated: `"group 3"` matches the claimed
pattern — the optional word `group`, a separator, digits — but the code's
regexes accept only the French word `groupe` (or a literal `G`), so the
text is returned unchanged instead of being canonicalized to `"G 3"`. -/
theorem normalize_group_label_counterexample :
    normalize_group_label (Cell.str "group 3") = some "group 3" ∧
    (some ("group 3" : String)) ≠ some "G 3" := by
  exact ⟨by decide, by decide⟩

/-- Witness for C8 (amended) at concrete inputs for each branch. -/
theorem normalize_group_label_spec_witness :
    normalize_group_label (Cell.str "TD G.12 amphi") = some ("G " ++ String.mk ['1', '2']) ∧
    normalize_group_label (Cell.str " 7 ") = some ("G " ++ String.mk ['7']) ∧
    normalize_group_label (Cell.str "Amphi A") = some "Amphi A" ∧
    normalize_group_label Cell.empty = none := by
  refine ⟨?_, ?_, ?_, (normalize_group_label_spec Cell.empty).1⟩
  · exact (((normalize_group_label_spec (Cell.str "TD G.12 amphi")).2 (by decide)).2.1
      ['1', '2'] (by decide)).1
  · exact ((((normalize_group_label_spec (Cell.str " 7 ")).2 (by decide)).2.2.1
      (by decide)) ['7'] (by decide)).1
  · have h := (((normalize_group_label_spec (Cell.str "Amphi A")).2 (by decide)).2.2.2)
      (by decide) (by decide) (by decide)
    simpa using h
